import Mathlib

/-!
# Verification of the utxos-sdk secret-sharing and shard-lifecycle subsystem

This development embeds the SDK's byte/encoding utilities, GF(256) arithmetic,
Shamir secret sharing engine, shard lifecycle functions, envelope encryption
layer and platform-adapter singleton, and proves the specified properties
about them.

Machine bytes are modelled as `Nat` values below 256; fallible operations
return `Except String` or `Option` mirroring thrown errors / rejections.
-/

set_option maxRecDepth 100000

namespace UtxosSdk

/-! ## GF(256) arithmetic

The spec (§4.1) fixes addition to byte-wise XOR and multiplication/division to
logarithm/exponent table lookups over a fixed irreducible polynomial.  We use
the AES polynomial x^8+x^4+x^3+x+1 (0x11b) with generator 3; `gfExp`/`gfLog`
are the tables, computed rather than stored.  `pmul` is the underlying
carry-less (Russian peasant) product modulo the same polynomial, used to
construct the tables and to prove the algebraic laws. -/

/-- Multiply by x in GF(256): shift left and reduce by 0x11b when the high bit
was set. -/
def xtime (a : Nat) : Nat := if a < 128 then 2 * a else (2 * a) ^^^ 283

/-- Carry-less product accumulator: `n` rounds of shift-and-add over GF(2). -/
def pmulAux : Nat → Nat → Nat → Nat
  | 0, _, _ => 0
  | n + 1, a, b => (if b % 2 = 1 then a else 0) ^^^ pmulAux n (xtime a) (b / 2)

/-- GF(256) product of two bytes via 8 rounds of shift-and-add. -/
def pmul (a b : Nat) : Nat := pmulAux 8 a b

/-- Exponent table: `gfExp i` is the generator 3 raised to the i-th power. -/
def gfExp : Nat → Nat
  | 0 => 1
  | n + 1 => pmul (gfExp n) 3

/-- Logarithm table: index of `a` in the exponent table (255 when absent). -/
def gfLog (a : Nat) : Nat := (List.range 255).findIdx (fun i => gfExp i == a)

/-- GF(256) addition: byte-wise XOR (spec §4.1 `add`). -/
def gfAddN (a b : Nat) : Nat := a ^^^ b

/-- GF(256) multiplication via the tables (spec §4.1 `multiply`): 0 if either
operand is 0, else `exp[(log[a] + log[b]) mod 255]`. -/
def gfMulN (a b : Nat) : Nat :=
  if a = 0 ∨ b = 0 then 0 else gfExp ((gfLog a + gfLog b) % 255)

/-- GF(256) division via the tables (spec §4.1 `divide`):
`exp[(log[a] - log[b] + 255) mod 255]`, with 0/b = 0.  Division by zero is a
hard error in the source; the caller below only divides by nonzero field
elements, so the value at b = 0 is never observed. -/
def gfDivN (a b : Nat) : Nat :=
  if a = 0 then 0 else gfExp ((gfLog a + 255 - gfLog b) % 255)

/-- Multiplicative inverse via the tables: `exp[(255 - log[a]) mod 255]`. -/
def gfInvN (a : Nat) : Nat :=
  if a = 0 then 0 else gfExp ((255 - gfLog a) % 255)

/-- Multiplying a byte by x yields a byte. -/
theorem xtime_lt : ∀ a < 256, xtime a < 256 := by decide

theorem xor_lt_256 {a b : Nat} (ha : a < 256) (hb : b < 256) : a ^^^ b < 256 :=
  Nat.xor_lt_two_pow (n := 8) ha hb

theorem pmulAux_lt : ∀ n a b, a < 256 → pmulAux n a b < 256 := by
  intro n
  induction n with
  | zero => intro a b _; simp [pmulAux]
  | succ n ih =>
    intro a b ha
    unfold pmulAux
    refine xor_lt_256 ?_ (ih _ _ (xtime_lt a ha))
    split
    · exact ha
    · norm_num

/-- The carry-less product of two bytes is a byte. -/
theorem pmul_lt : ∀ a < 256, ∀ b < 256, pmul a b < 256 := by
  intro a ha b _
  exact pmulAux_lt 8 a b ha

theorem gfExp_lt : ∀ i, gfExp i < 256 := by
  intro i
  induction i with
  | zero => decide
  | succ n ih => exact pmul_lt _ ih 3 (by norm_num)

theorem gfMulN_lt (a b : Nat) : gfMulN a b < 256 := by
  unfold gfMulN
  split
  · norm_num
  · exact gfExp_lt _

/-- Every nonzero byte appears in the exponent table, at its logarithm. -/
theorem gfExp_gfLog : ∀ a < 256, a ≠ 0 → gfLog a < 255 ∧ gfExp (gfLog a) = a := by
  decide

/-- The logarithm inverts the exponent table. -/
theorem gfLog_gfExp : ∀ i < 255, gfLog (gfExp i) = i := by decide

/-- The exponent table never takes the value 0. -/
theorem gfExp_ne_zero : ∀ i < 255, gfExp i ≠ 0 := by decide

/-! ### Ring laws for the carry-less product

`pmul` is GF(256) multiplication; we establish commutativity, associativity
and distributivity over XOR by bit-level induction, then derive the
exponential homomorphism that identifies the table-based `gfMulN` with
`pmul`. -/

theorem xtime_zero : xtime 0 = 0 := by decide

theorem two_mul_xor (x y : Nat) : 2 * (x ^^^ y) = 2 * x ^^^ 2 * y := by
  have hdiv : (2 * x ^^^ 2 * y) / 2 = x ^^^ y := by
    rw [Nat.xor_div_two, Nat.mul_div_cancel_left x (by norm_num),
      Nat.mul_div_cancel_left y (by norm_num)]
  have hmod : (2 * x ^^^ 2 * y) % 2 = 0 := by
    rw [Nat.xor_mod_two_eq]
    omega
  omega

theorem add_128_eq_xor : ∀ t < 128, 128 + t = 128 ^^^ t := by decide

theorem xor_mix (p q r s : Nat) :
    (p ^^^ q) ^^^ (r ^^^ s) = (p ^^^ r) ^^^ (q ^^^ s) := by
  rw [Nat.xor_assoc, Nat.xor_assoc]
  congr 1
  rw [← Nat.xor_assoc, ← Nat.xor_assoc, Nat.xor_comm q r]

theorem xtime_xor : ∀ x < 256, ∀ y < 256,
    xtime (x ^^^ y) = xtime x ^^^ xtime y := by
  intro x hx y hy
  unfold xtime
  by_cases h1 : x < 128 <;> by_cases h2 : y < 128
  · have hxy : x ^^^ y < 128 := Nat.xor_lt_two_pow (n := 7) h1 h2
    simp only [if_pos h1, if_pos h2, if_pos hxy]
    exact two_mul_xor x y
  · have hxy : ¬ x ^^^ y < 128 := by
      intro hlt
      apply h2
      have h3 : (x ^^^ y) ^^^ x < 128 := Nat.xor_lt_two_pow (n := 7) hlt h1
      rwa [Nat.xor_comm x y, Nat.xor_cancel_right] at h3
    simp only [if_pos h1, if_neg h2, if_neg hxy]
    rw [two_mul_xor, Nat.xor_assoc]
  · have hxy : ¬ x ^^^ y < 128 := by
      intro hlt
      apply h1
      have h3 : (x ^^^ y) ^^^ y < 128 := Nat.xor_lt_two_pow (n := 7) hlt h2
      rwa [Nat.xor_cancel_right] at h3
    simp only [if_neg h1, if_pos h2, if_neg hxy]
    rw [two_mul_xor, Nat.xor_assoc, Nat.xor_comm (2 * y) (283 : Nat),
      ← Nat.xor_assoc]
  · have hs : x ^^^ y < 128 := by
      obtain ⟨s, hs1, rfl⟩ : ∃ s, s < 128 ∧ x = 128 + s := ⟨x - 128, by omega⟩
      obtain ⟨t, ht1, rfl⟩ : ∃ t, t < 128 ∧ y = 128 + t := ⟨y - 128, by omega⟩
      rw [add_128_eq_xor s hs1, add_128_eq_xor t ht1, xor_mix, Nat.xor_self,
        Nat.zero_xor]
      exact Nat.xor_lt_two_pow (n := 7) hs1 ht1
    simp only [if_neg h1, if_neg h2, if_pos hs]
    rw [two_mul_xor, xor_mix, Nat.xor_self, Nat.xor_zero]

theorem pmulAux_zero : ∀ n a, pmulAux n a 0 = 0 := by
  intro n
  induction n with
  | zero => intro a; rfl
  | succ n ih => intro a; simp [pmulAux, ih]

theorem pmul_zero (a : Nat) : pmul a 0 = 0 := pmulAux_zero 8 a

theorem pmulAux_zero_left : ∀ n b, pmulAux n 0 b = 0 := by
  intro n
  induction n with
  | zero => intro b; rfl
  | succ n ih => intro b; simp [pmulAux, xtime_zero, ih]

theorem pmul_zero_left (b : Nat) : pmul 0 b = 0 := pmulAux_zero_left 8 b

theorem pmulAux_fuel : ∀ n a b, b < 2 ^ n → pmulAux n a b = pmulAux (n + 1) a b := by
  intro n
  induction n with
  | zero =>
    intro a b hb
    interval_cases b
    simp [pmulAux]
  | succ n ih =>
    intro a b hb
    have hb2 : b / 2 < 2 ^ n := by
      have := Nat.pow_succ 2 n
      omega
    show pmulAux (n + 1) a b = pmulAux (n + 2) a b
    rw [show pmulAux (n + 1) a b
          = (if b % 2 = 1 then a else 0) ^^^ pmulAux n (xtime a) (b / 2) from rfl,
      show pmulAux (n + 2) a b
          = (if b % 2 = 1 then a else 0) ^^^ pmulAux (n + 1) (xtime a) (b / 2) from rfl,
      ih (xtime a) (b / 2) hb2]

/-- Uniform unfolding of the byte product: one shift-and-add round. -/
theorem pmul_unfold (a b : Nat) (hb : b < 256) :
    pmul a b = (if b % 2 = 1 then a else 0) ^^^ pmul (xtime a) (b / 2) := by
  show pmulAux 8 a b = (if b % 2 = 1 then a else 0) ^^^ pmulAux 8 (xtime a) (b / 2)
  rw [show pmulAux 8 a b
        = (if b % 2 = 1 then a else 0) ^^^ pmulAux 7 (xtime a) (b / 2) from rfl,
    pmulAux_fuel 7 (xtime a) (b / 2) (by omega)]

theorem pmul_one_right (a : Nat) : pmul a 1 = a := by
  rw [pmul_unfold a 1 (by norm_num)]
  norm_num [pmul_zero]

theorem pmul_one_left : ∀ b < 256, pmul 1 b = b := by decide

/-- Multiplying by x commutes with the byte product. -/
theorem pmul_xtime : ∀ b < 256, ∀ a < 256,
    pmul (xtime a) b = xtime (pmul a b) := by
  intro b
  induction b using Nat.strong_induction_on with
  | _ b ih =>
    intro hb a ha
    rcases Nat.eq_zero_or_pos b with rfl | hbpos
    · rw [pmul_zero, pmul_zero, xtime_zero]
    · have hb2 : b / 2 < b := Nat.div_lt_self hbpos one_lt_two
      have hb2' : b / 2 < 256 := by omega
      rw [pmul_unfold (xtime a) b hb, pmul_unfold a b hb,
        xtime_xor (if b % 2 = 1 then a else 0)
          (by split <;> [exact ha; norm_num])
          (pmul (xtime a) (b / 2)) (pmul_lt _ (xtime_lt a ha) _ hb2'),
        ih (b / 2) hb2 hb2' (xtime a) (xtime_lt a ha)]
      congr 1
      by_cases hodd : b % 2 = 1 <;> simp [hodd, xtime_zero]

/-- The byte product distributes over XOR on the right. -/
theorem pmul_xor_right : ∀ n, ∀ b c a, b + c ≤ n → b < 256 → c < 256 → a < 256 →
    pmul a (b ^^^ c) = pmul a b ^^^ pmul a c := by
  intro n
  induction n with
  | zero =>
    intro b c a h hb hc ha
    have hb0 : b = 0 := by omega
    have hc0 : c = 0 := by omega
    subst hb0; subst hc0
    simp [pmul_zero]
  | succ n ih =>
    intro b c a h hb hc ha
    have hxor : b ^^^ c < 256 := xor_lt_256 hb hc
    rw [pmul_unfold a (b ^^^ c) hxor, pmul_unfold a b hb, pmul_unfold a c hc,
      Nat.xor_div_two,
      ih (b / 2) (c / 2) (xtime a) (by omega) (by omega) (by omega)
        (xtime_lt a ha)]
    have hif : (if (b ^^^ c) % 2 = 1 then a else 0)
        = (if b % 2 = 1 then a else 0) ^^^ (if c % 2 = 1 then a else 0) := by
      rcases Nat.mod_two_eq_zero_or_one b with hb2 | hb2 <;>
        rcases Nat.mod_two_eq_zero_or_one c with hc2 | hc2 <;>
        simp [Nat.xor_mod_two_eq_one, hb2, hc2] <;>
        omega
    rw [hif, xor_mix]

/-- The byte product distributes over XOR on the left. -/
theorem pmul_xor_left : ∀ b < 256, ∀ x < 256, ∀ y < 256,
    pmul (x ^^^ y) b = pmul x b ^^^ pmul y b := by
  intro b
  induction b using Nat.strong_induction_on with
  | _ b ih =>
    intro hb x hx y hy
    rcases Nat.eq_zero_or_pos b with rfl | hbpos
    · simp [pmul_zero]
    · have hxor : x ^^^ y < 256 := xor_lt_256 hx hy
      have hb2 : b / 2 < b := Nat.div_lt_self hbpos one_lt_two
      have hb2' : b / 2 < 256 := by omega
      rw [pmul_unfold (x ^^^ y) b hb, pmul_unfold x b hb, pmul_unfold y b hb,
        xtime_xor x hx y hy,
        ih (b / 2) hb2 hb2' (xtime x) (xtime_lt x hx) (xtime y) (xtime_lt y hy),
        xor_mix]
      congr 1
      split <;> simp

theorem two_mul_add_bit : ∀ k < 128, ∀ m < 2, 2 * k ^^^ m = 2 * k + m := by
  decide

/-- The byte product is commutative. -/
theorem pmul_comm : ∀ a < 256, ∀ b < 256, pmul a b = pmul b a := by
  intro a
  induction a using Nat.strong_induction_on with
  | _ a ih =>
    intro ha b hb
    rcases Nat.eq_zero_or_pos a with rfl | hapos
    · rw [pmul_zero, pmul_zero_left]
    · have hsplit : a = 2 * (a / 2) ^^^ a % 2 := by
        rw [two_mul_add_bit (a / 2) (by omega) (a % 2) (by omega)]
        omega
      have hx2 : xtime (a / 2) = 2 * (a / 2) := by
        unfold xtime
        rw [if_pos (by omega)]
      have ha2 : a / 2 < a := Nat.div_lt_self hapos one_lt_two
      have ha2' : a / 2 < 256 := by omega
      conv_lhs => rw [hsplit]
      rw [pmul_xor_left b hb (2 * (a / 2)) (by omega) (a % 2) (by omega),
        ← hx2, pmul_xtime b hb (a / 2) ha2', ih (a / 2) ha2 ha2' b hb,
        pmul_unfold b a ha, pmul_xtime (a / 2) ha2' b hb,
        Nat.xor_comm (xtime (pmul b (a / 2))) (pmul (a % 2) b)]
      congr 1
      rcases Nat.mod_two_eq_zero_or_one a with h2 | h2 <;> rw [h2]
      · rw [if_neg (by norm_num), pmul_zero_left]
      · rw [if_pos rfl, pmul_one_left b hb]

/-- The byte product is associative. -/
theorem pmul_assoc : ∀ c < 256, ∀ a < 256, ∀ b < 256,
    pmul (pmul a b) c = pmul a (pmul b c) := by
  intro c
  induction c using Nat.strong_induction_on with
  | _ c ih =>
    intro hc a ha b hb
    rcases Nat.eq_zero_or_pos c with rfl | hcpos
    · rw [pmul_zero, pmul_zero, pmul_zero]
    · have hc2 : c / 2 < c := Nat.div_lt_self hcpos one_lt_two
      have hc2' : c / 2 < 256 := by omega
      have hbx : pmul (xtime b) (c / 2) < 256 :=
        pmul_lt _ (xtime_lt b hb) _ hc2'
      rw [pmul_unfold b c hc,
        pmul_xor_right 512 (if c % 2 = 1 then b else 0)
          (pmul (xtime b) (c / 2)) a
          (by split <;> omega)
          (by split <;> omega) hbx ha,
        ← ih (c / 2) hc2 hc2' a ha (xtime b) (xtime_lt b hb),
        pmul_unfold (pmul a b) c hc]
      congr 1
      · by_cases hodd : c % 2 = 1 <;> simp [hodd, pmul_zero]
      · congr 1
        rw [pmul_comm a ha (xtime b) (xtime_lt b hb),
          pmul_xtime a ha b hb,
          pmul_comm b hb a ha]

/-- The exponent table is multiplicative. -/
theorem gfExp_add : ∀ i j, gfExp (i + j) = pmul (gfExp i) (gfExp j) := by
  intro i j
  induction j with
  | zero =>
    show gfExp i = pmul (gfExp i) 1
    rw [pmul_one_right]
  | succ j ihj =>
    show gfExp (i + j + 1) = pmul (gfExp i) (gfExp (j + 1))
    show pmul (gfExp (i + j)) 3 = pmul (gfExp i) (pmul (gfExp j) 3)
    rw [ihj, pmul_assoc 3 (by norm_num) (gfExp i) (gfExp_lt i) (gfExp j)
      (gfExp_lt j)]

theorem gfExp_255 : gfExp 255 = 1 := by decide

theorem gfExp_mul_255 : ∀ q, gfExp (255 * q) = 1 := by
  intro q
  induction q with
  | zero => rfl
  | succ q ih =>
    have : 255 * (q + 1) = 255 * q + 255 := by ring
    rw [this, gfExp_add, ih, pmul_one_left (gfExp 255) (gfExp_lt 255),
      gfExp_255]

theorem gfExp_mod (n : Nat) : gfExp (n % 255) = gfExp n := by
  conv_rhs => rw [show n = 255 * (n / 255) + n % 255 from (Nat.div_add_mod n 255).symm]
  rw [gfExp_add, gfExp_mul_255, pmul_one_left _ (gfExp_lt _)]

/-- The table product of two exponentials is the exponential of the sum. -/
theorem pmul_gfExp_gfExp (i j : Nat) :
    pmul (gfExp i) (gfExp j) = gfExp ((i + j) % 255) := by
  rw [← gfExp_add, gfExp_mod]

/-- The spec's table-based multiplication agrees with the carry-less product
on bytes. -/
theorem gfMulN_eq_pmul : ∀ a < 256, ∀ b < 256, gfMulN a b = pmul a b := by
  intro a ha b hb
  unfold gfMulN
  by_cases h : a = 0 ∨ b = 0
  · rw [if_pos h]
    rcases h with rfl | rfl
    · rw [pmul_zero_left]
    · rw [pmul_zero]
  · push_neg at h
    rw [if_neg (by tauto)]
    obtain ⟨hla, hea⟩ := gfExp_gfLog a ha h.1
    obtain ⟨hlb, heb⟩ := gfExp_gfLog b hb h.2
    conv_rhs => rw [← hea, ← heb]
    rw [pmul_gfExp_gfExp]

theorem gfInvN_lt (a : Nat) : gfInvN a < 256 := by
  unfold gfInvN
  split
  · norm_num
  · exact gfExp_lt _

theorem gfMulN_comm (a b : Nat) (ha : a < 256) (hb : b < 256) :
    gfMulN a b = gfMulN b a := by
  rw [gfMulN_eq_pmul a ha b hb, gfMulN_eq_pmul b hb a ha, pmul_comm a ha b hb]

theorem gfMulN_assoc (a b c : Nat) (ha : a < 256) (hb : b < 256) (hc : c < 256) :
    gfMulN (gfMulN a b) c = gfMulN a (gfMulN b c) := by
  rw [gfMulN_eq_pmul a ha b hb, gfMulN_eq_pmul b hb c hc,
    gfMulN_eq_pmul (pmul a b) (pmul_lt a ha b hb) c hc,
    gfMulN_eq_pmul a ha (pmul b c) (pmul_lt b hb c hc),
    pmul_assoc c hc a ha b hb]

theorem gfMulN_one (a : Nat) (ha : a < 256) : gfMulN a 1 = a := by
  rw [gfMulN_eq_pmul a ha 1 (by norm_num), pmul_one_right]

theorem gfMulN_one_left (b : Nat) (hb : b < 256) : gfMulN 1 b = b := by
  rw [gfMulN_eq_pmul 1 (by norm_num) b hb, pmul_one_left b hb]

theorem gfMulN_zero (a : Nat) : gfMulN a 0 = 0 := by
  unfold gfMulN
  rw [if_pos (Or.inr rfl)]

theorem gfMulN_zero_left (b : Nat) : gfMulN 0 b = 0 := by
  unfold gfMulN
  rw [if_pos (Or.inl rfl)]

theorem gfMulN_distrib (a b c : Nat) (ha : a < 256) (hb : b < 256)
    (hc : c < 256) : gfMulN a (b ^^^ c) = gfMulN a b ^^^ gfMulN a c := by
  rw [gfMulN_eq_pmul a ha (b ^^^ c) (xor_lt_256 hb hc),
    gfMulN_eq_pmul a ha b hb, gfMulN_eq_pmul a ha c hc,
    pmul_xor_right 512 b c a (by omega) hb hc ha]

theorem gfMulN_gfInvN : ∀ a < 256, a ≠ 0 → gfMulN a (gfInvN a) = 1 := by
  intro a ha h0
  obtain ⟨hla, hea⟩ := gfExp_gfLog a ha h0
  have harg : (255 - gfLog a) % 255 < 255 := Nat.mod_lt _ (by norm_num)
  have hinv : gfInvN a = gfExp ((255 - gfLog a) % 255) := by
    unfold gfInvN
    rw [if_neg h0]
  have hinv0 : gfInvN a ≠ 0 := by
    rw [hinv]
    exact gfExp_ne_zero _ harg
  unfold gfMulN
  rw [if_neg (by tauto), hinv, gfLog_gfExp _ harg,
    show (gfLog a + (255 - gfLog a) % 255) % 255 = 0 by omega]
  rfl

/-- A GF(256) field element: a byte. -/
structure GF where
  val : Nat
  isLt : val < 256

theorem GF.ext {a b : GF} (h : a.val = b.val) : a = b := by
  cases a
  cases b
  simpa using h

instance : DecidableEq GF := fun a b =>
  decidable_of_iff (a.val = b.val) ⟨GF.ext, fun h => by rw [h]⟩

instance : Zero GF := ⟨⟨0, by norm_num⟩⟩

instance : One GF := ⟨⟨1, by norm_num⟩⟩

instance : Add GF := ⟨fun a b => ⟨a.val ^^^ b.val, xor_lt_256 a.isLt b.isLt⟩⟩

instance : Mul GF := ⟨fun a b => ⟨gfMulN a.val b.val, gfMulN_lt _ _⟩⟩

instance : Neg GF := ⟨fun a => a⟩

instance : Inv GF := ⟨fun a => ⟨gfInvN a.val, gfInvN_lt _⟩⟩

theorem GF.val_add (a b : GF) : (a + b).val = a.val ^^^ b.val := rfl

theorem GF.val_mul (a b : GF) : (a * b).val = gfMulN a.val b.val := rfl

theorem GF.val_zero : (0 : GF).val = 0 := rfl

theorem GF.val_one : (1 : GF).val = 1 := rfl

theorem GF.val_neg (a : GF) : (-a).val = a.val := rfl

theorem GF.val_inv (a : GF) : a⁻¹.val = gfInvN a.val := rfl

instance : CommRing GF where
  add := (· + ·)
  zero := 0
  one := 1
  mul := (· * ·)
  neg := (- ·)
  nsmul := nsmulRec
  zsmul := zsmulRec
  add_assoc a b c := by
    apply GF.ext
    exact Nat.xor_assoc _ _ _
  zero_add a := by
    apply GF.ext
    exact Nat.zero_xor _
  add_zero a := by
    apply GF.ext
    exact Nat.xor_zero _
  add_comm a b := by
    apply GF.ext
    exact Nat.xor_comm _ _
  neg_add_cancel a := by
    apply GF.ext
    exact Nat.xor_self _
  mul_assoc a b c := by
    apply GF.ext
    exact gfMulN_assoc _ _ _ a.isLt b.isLt c.isLt
  one_mul a := by
    apply GF.ext
    exact gfMulN_one_left _ a.isLt
  mul_one a := by
    apply GF.ext
    exact gfMulN_one _ a.isLt
  mul_comm a b := by
    apply GF.ext
    exact gfMulN_comm _ _ a.isLt b.isLt
  zero_mul a := by
    apply GF.ext
    show gfMulN 0 a.val = 0
    exact gfMulN_zero_left _
  mul_zero a := by
    apply GF.ext
    show gfMulN a.val 0 = 0
    exact gfMulN_zero _
  left_distrib a b c := by
    apply GF.ext
    exact gfMulN_distrib _ _ _ a.isLt b.isLt c.isLt
  right_distrib a b c := by
    apply GF.ext
    show gfMulN (a.val ^^^ b.val) c.val
        = gfMulN a.val c.val ^^^ gfMulN b.val c.val
    rw [gfMulN_comm _ _ (xor_lt_256 a.isLt b.isLt) c.isLt,
      gfMulN_distrib _ _ _ c.isLt a.isLt b.isLt,
      gfMulN_comm c.val a.val c.isLt a.isLt,
      gfMulN_comm c.val b.val c.isLt b.isLt]

instance : Field GF where
  inv := (· ⁻¹)
  exists_pair_ne := ⟨0, 1, fun h => by
    have h2 := congrArg GF.val h
    rw [GF.val_zero, GF.val_one] at h2
    exact absurd h2 (by norm_num)⟩
  mul_inv_cancel a ha := by
    apply GF.ext
    show gfMulN a.val (gfInvN a.val) = 1
    exact gfMulN_gfInvN a.val a.isLt
      (fun h => ha (GF.ext (h.trans GF.val_zero.symm)))
  inv_zero := by
    apply GF.ext
    show gfInvN 0 = 0
    rfl
  nnqsmul := _
  qsmul := _

/-- Subtraction coincides with addition: GF(256) has characteristic 2. -/
theorem GF.sub_eq_add (a b : GF) : a - b = a + b := by
  apply GF.ext
  rw [sub_eq_add_neg]
  rfl

theorem GF.neg_eq (a : GF) : -a = a := GF.ext rfl

/-! ## Shamir Secret Sharing engine

Modelled from the spec: the implementation file `shamir-secret-sharing.ts`
(exporting `shamirSplit` and `shamirCombine`) is not part of the source
snapshot — only its test suite and callers are — so the engine is modelled
from spec §4.2 and the behaviour pinned down by its tests.

Randomness is passed explicitly: `xcoord j` is the x-coordinate drawn for
share `j` and `coeff i k` is the k-th random polynomial coefficient for byte
position `i`. -/

structure SplitRnd where
  xcoord : Nat → Nat
  coeff : Nat → Nat → Nat

/-- Horner evaluation of a byte polynomial over GF(256); `coeffs` is in
ascending-degree order, the constant term first. -/
def evalPolyN (coeffs : List Nat) (x : Nat) : Nat :=
  coeffs.foldr (fun c acc => gfAddN c (gfMulN x acc)) 0

/-- One share: evaluations of each byte's polynomial at this share's
x-coordinate, followed by the x-coordinate itself. -/
def shamirShare (secret : List Nat) (threshold : Nat) (rnd : SplitRnd)
    (j : Nat) : List Nat :=
  (List.range secret.length).map (fun i =>
    evalPolyN (secret.getD i 0 :: (List.range (threshold - 1)).map (rnd.coeff i))
      (rnd.xcoord j))
  ++ [rnd.xcoord j]

/-- Modelled from the spec: `shamirSplit(secret, shareCount, threshold)`
(§4.2), validation first, then one share per x-coordinate. -/
def shamirSplit (secret : List Nat) (shareCount threshold : Nat)
    (rnd : SplitRnd) : Except String (List (List Nat)) :=
  if secret.length = 0 then .error "secret cannot be empty"
  else if shareCount < 2 ∨ 255 < shareCount then
    .error "shares must be at least 2 and at most 255"
  else if threshold < 2 ∨ 255 < threshold then
    .error "threshold must be at least 2 and at most 255"
  else if shareCount < threshold then
    .error "shares cannot be less than threshold"
  else .ok ((List.range shareCount).map (shamirShare secret threshold rnd))

/-- The trailing x-coordinate byte of a share. -/
def xcoordOf (s : List Nat) : Nat := s.getLastD 0

/-- The Lagrange basis value at x = 0 for node `xj` among nodes `xs`:
the product over the other nodes `xm` of `xm / (xm + xj)` in GF(256). -/
def lagrangeBasisAt0 (xs : List Nat) (xj : Nat) : Nat :=
  ((xs.filter (fun x => x ≠ xj)).map
    (fun xm => gfDivN xm (gfAddN xm xj))).foldr gfMulN 1

/-- Lagrange interpolation at x = 0 from `(x, y)` pairs in GF(256). -/
def lagrangeAt0 (pts : List (Nat × Nat)) : Nat :=
  (pts.map (fun p =>
    gfMulN p.2 (lagrangeBasisAt0 (pts.map Prod.fst) p.1))).foldr gfAddN 0

/-- Reconstruction body: one interpolation per byte position. -/
def shamirCombineBody (shares : List (List Nat)) : List Nat :=
  (List.range ((shares.headD []).length - 1)).map (fun i =>
    lagrangeAt0 (shares.map (fun s => (xcoordOf s, s.getD i 0))))

/-- Modelled from the spec: `shamirCombine(shares)` (§4.2), the four input
validations with their distinct error messages, then byte-wise Lagrange
interpolation at x = 0. -/
def shamirCombine (shares : List (List Nat)) : Except String (List Nat) :=
  if shares.length < 2 ∨ 255 < shares.length then
    .error "shares must have at least 2 and at most 255 elements"
  else if ¬ (∀ s ∈ shares, s.length = (shares.headD []).length) then
    .error "all shares must have the same byte length"
  else if (shares.headD []).length < 2 then
    .error "each share must be at least 2 bytes"
  else if ¬ (shares.map xcoordOf).Nodup then
    .error "shares must contain unique values but a duplicate was found"
  else .ok (shamirCombineBody shares)

/-! ### Lifting byte computations into the field -/

/-- Embed a byte into GF(256) (values ≥ 256 never arise in lifted terms). -/
def mkGF (b : Nat) : GF := if h : b < 256 then ⟨b, h⟩ else 0

/-- Horner evaluation over the field, mirroring `evalPolyN`. -/
def evalPolyGF (coeffs : List GF) (x : GF) : GF :=
  coeffs.foldr (fun c acc => c + x * acc) 0

theorem mkGF_val (b : Nat) (h : b < 256) : (mkGF b).val = b := by
  unfold mkGF
  rw [dif_pos h]

theorem mkGF_inj {a b : Nat} (ha : a < 256) (hb : b < 256)
    (h : mkGF a = mkGF b) : a = b := by
  have := congrArg GF.val h
  rwa [mkGF_val _ ha, mkGF_val _ hb] at this

theorem mkGF_zero : mkGF 0 = 0 := by
  apply GF.ext
  rw [mkGF_val 0 (by norm_num), GF.val_zero]

theorem mkGF_eq_zero_iff {b : Nat} (hb : b < 256) : mkGF b = 0 ↔ b = 0 := by
  constructor
  · intro h
    have := congrArg GF.val h
    rwa [mkGF_val _ hb, GF.val_zero] at this
  · intro h
    rw [h, mkGF_zero]

theorem mkGF_add (a b : Nat) (ha : a < 256) (hb : b < 256) :
    mkGF (gfAddN a b) = mkGF a + mkGF b := by
  apply GF.ext
  rw [GF.val_add, show gfAddN a b = a ^^^ b from rfl,
    mkGF_val _ (xor_lt_256 ha hb), mkGF_val _ ha, mkGF_val _ hb]

theorem mkGF_mul (a b : Nat) (ha : a < 256) (hb : b < 256) :
    mkGF (gfMulN a b) = mkGF a * mkGF b := by
  apply GF.ext
  rw [GF.val_mul, mkGF_val _ (gfMulN_lt a b), mkGF_val _ ha, mkGF_val _ hb]

theorem gfDivN_lt (a b : Nat) : gfDivN a b < 256 := by
  unfold gfDivN
  split
  · norm_num
  · exact gfExp_lt _

theorem gfDivN_eq (a b : Nat) (ha : a < 256) (hb : b < 256) (hb0 : b ≠ 0) :
    gfDivN a b = gfMulN a (gfInvN b) := by
  obtain ⟨hlb, heb⟩ := gfExp_gfLog b hb hb0
  by_cases ha0 : a = 0
  · subst ha0
    rw [gfMulN_zero_left]
    rfl
  · obtain ⟨hla, hea⟩ := gfExp_gfLog a ha ha0
    have harg : (255 - gfLog b) % 255 < 255 := Nat.mod_lt _ (by norm_num)
    have hinv : gfInvN b = gfExp ((255 - gfLog b) % 255) := by
      unfold gfInvN
      rw [if_neg hb0]
    have hinv0 : gfInvN b ≠ 0 := by
      rw [hinv]
      exact gfExp_ne_zero _ harg
    unfold gfDivN gfMulN
    rw [if_neg ha0, if_neg (by tauto), hinv, gfLog_gfExp _ harg]
    exact congrArg gfExp (by omega)

theorem mkGF_div (a b : Nat) (ha : a < 256) (hb : b < 256) (hb0 : b ≠ 0) :
    mkGF (gfDivN a b) = mkGF a / mkGF b := by
  rw [div_eq_mul_inv, gfDivN_eq a b ha hb hb0]
  apply GF.ext
  rw [GF.val_mul, GF.val_inv, mkGF_val _ (gfMulN_lt _ _), mkGF_val _ ha,
    mkGF_val _ hb]

theorem evalPolyN_lt (coeffs : List Nat) (x : Nat)
    (h : ∀ c ∈ coeffs, c < 256) : evalPolyN coeffs x < 256 := by
  induction coeffs with
  | nil => norm_num [evalPolyN]
  | cons c cs ih =>
    show gfAddN c (gfMulN x (evalPolyN cs x)) < 256
    exact xor_lt_256 (h c (List.mem_cons_self c cs)) (gfMulN_lt _ _)

theorem mkGF_evalPolyN (coeffs : List Nat) (x : Nat)
    (hc : ∀ c ∈ coeffs, c < 256) (hx : x < 256) :
    mkGF (evalPolyN coeffs x) = evalPolyGF (coeffs.map mkGF) (mkGF x) := by
  induction coeffs with
  | nil =>
    show mkGF 0 = 0
    exact mkGF_zero
  | cons c cs ih =>
    show mkGF (gfAddN c (gfMulN x (evalPolyN cs x)))
        = mkGF c + mkGF x * evalPolyGF (cs.map mkGF) (mkGF x)
    rw [mkGF_add _ _ (hc c (List.mem_cons_self c cs)) (gfMulN_lt _ _),
      mkGF_mul _ _ hx (evalPolyN_lt cs x (fun d hd => hc d (List.mem_cons_of_mem c hd))),
      ih (fun d hd => hc d (List.mem_cons_of_mem c hd))]

theorem foldr_gfMulN_lt (l : List Nat) : l.foldr gfMulN 1 < 256 := by
  induction l with
  | nil => norm_num
  | cons v vs ih => exact gfMulN_lt _ _

theorem mkGF_foldr_mul (l : List Nat) (h : ∀ v ∈ l, v < 256) :
    mkGF (l.foldr gfMulN 1) = (l.map mkGF).prod := by
  induction l with
  | nil =>
    show mkGF 1 = 1
    apply GF.ext
    rw [mkGF_val 1 (by norm_num), GF.val_one]
  | cons v vs ih =>
    show mkGF (gfMulN v (vs.foldr gfMulN 1)) = (mkGF v :: vs.map mkGF).prod
    rw [List.prod_cons,
      mkGF_mul _ _ (h v (List.mem_cons_self v vs)) (foldr_gfMulN_lt vs),
      ih (fun d hd => h d (List.mem_cons_of_mem v hd))]

theorem foldr_gfAddN_lt (l : List Nat) (h : ∀ v ∈ l, v < 256) :
    l.foldr gfAddN 0 < 256 := by
  induction l with
  | nil => norm_num
  | cons v vs ih =>
    exact xor_lt_256 (h v (List.mem_cons_self v vs))
      (ih (fun d hd => h d (List.mem_cons_of_mem v hd)))

theorem mkGF_foldr_add (l : List Nat) (h : ∀ v ∈ l, v < 256) :
    mkGF (l.foldr gfAddN 0) = (l.map mkGF).sum := by
  induction l with
  | nil =>
    show mkGF 0 = 0
    exact mkGF_zero
  | cons v vs ih =>
    show mkGF (gfAddN v (vs.foldr gfAddN 0)) = (mkGF v :: vs.map mkGF).sum
    rw [List.sum_cons,
      mkGF_add _ _ (h v (List.mem_cons_self v vs))
        (foldr_gfAddN_lt vs (fun d hd => h d (List.mem_cons_of_mem v hd))),
      ih (fun d hd => h d (List.mem_cons_of_mem v hd))]

/-! ### Correctness of Lagrange interpolation at x = 0 -/

/-- Field-level mirror of `lagrangeBasisAt0`. -/
def lagrangeBasisAt0GF (xs : List GF) (xj : GF) : GF :=
  ((xs.filter (fun x => x ≠ xj)).map (fun xm => xm / (xm + xj))).prod

/-- Field-level mirror of `lagrangeAt0`. -/
def lagrangeAt0GF (pts : List (GF × GF)) : GF :=
  (pts.map (fun p => p.2 * lagrangeBasisAt0GF (pts.map Prod.fst) p.1)).sum

/-- The ascending-coefficient polynomial of a coefficient list. -/
noncomputable def toPoly (c : List GF) : Polynomial GF :=
  c.foldr (fun c0 p => Polynomial.C c0 + Polynomial.X * p) 0

theorem eval_toPoly (c : List GF) (x : GF) :
    (toPoly c).eval x = evalPolyGF c x := by
  induction c with
  | nil => simp [toPoly, evalPolyGF]
  | cons c0 cs ih =>
    show (Polynomial.C c0 + Polynomial.X * toPoly cs).eval x
        = c0 + x * evalPolyGF cs x
    rw [Polynomial.eval_add, Polynomial.eval_C, Polynomial.eval_mul,
      Polynomial.eval_X, ih]

theorem degree_toPoly_lt (c : List GF) :
    (toPoly c).degree < ((c.length : ℕ) : WithBot ℕ) := by
  induction c with
  | nil =>
    show (0 : Polynomial GF).degree < _
    rw [Polynomial.degree_zero]
    exact WithBot.bot_lt_coe _
  | cons c0 cs ih =>
    show (Polynomial.C c0 + Polynomial.X * toPoly cs).degree
        < ((cs.length + 1 : ℕ) : WithBot ℕ)
    apply lt_of_le_of_lt (Polynomial.degree_add_le _ _)
    rw [max_lt_iff]
    refine ⟨lt_of_le_of_lt Polynomial.degree_C_le ?_, ?_⟩
    · exact_mod_cast Nat.succ_pos cs.length
    · by_cases h0 : toPoly cs = 0
      · rw [h0, mul_zero, Polynomial.degree_zero]
        exact WithBot.bot_lt_coe _
      · rw [Polynomial.degree_mul, Polynomial.degree_X,
          Polynomial.degree_eq_natDegree h0]
        have hlt : (toPoly cs).natDegree < cs.length := by
          have := ih
          rw [Polynomial.degree_eq_natDegree h0] at this
          exact_mod_cast this
        exact_mod_cast (by omega : 1 + (toPoly cs).natDegree < cs.length + 1)

theorem evalPolyGF_zero (coeffs : List GF) :
    evalPolyGF coeffs 0 = coeffs.headD 0 := by
  cases coeffs with
  | nil => rfl
  | cons c0 cs =>
    show c0 + 0 * evalPolyGF cs 0 = c0
    rw [zero_mul, add_zero]

/-- Interpolating the evaluations of a polynomial with fewer coefficients
than nodes at x = 0 recovers the constant term. -/
theorem lagrangeAt0GF_eval (coeffs : List GF) (xs : List GF)
    (hnodup : xs.Nodup) (hlen : coeffs.length ≤ xs.length) :
    lagrangeAt0GF (xs.map (fun x => (x, evalPolyGF coeffs x)))
      = coeffs.headD 0 := by
  classical
  have hcard : xs.toFinset.card = xs.length := List.toFinset_card_of_nodup hnodup
  have hdeg : (toPoly coeffs).degree < xs.toFinset.card := by
    rw [hcard]
    exact lt_of_lt_of_le (degree_toPoly_lt coeffs) (by exact_mod_cast hlen)
  have hinj : Set.InjOn id (xs.toFinset : Set GF) := Set.injOn_id _
  have key := Lagrange.eq_interpolate (s := xs.toFinset) (v := id) hinj hdeg
  have hbasis : ∀ x ∈ xs.toFinset,
      lagrangeBasisAt0GF xs x = (Lagrange.basis xs.toFinset id x).eval 0 := by
    intro x _
    show ((xs.filter (fun z => z ≠ x)).map (fun xm => xm / (xm + x))).prod
        = (Lagrange.basis xs.toFinset id x).eval 0
    rw [Lagrange.basis, Polynomial.eval_prod,
      ← List.prod_toFinset _ (hnodup.filter _), List.toFinset_filter]
    have hf : xs.toFinset.filter (fun z => ((z ≠ x : Bool) : Prop))
        = xs.toFinset.erase x := by
      ext z
      simp [Finset.mem_filter, Finset.mem_erase, and_comm]
    rw [hf]
    refine Finset.prod_congr rfl fun j hj => ?_
    have hjx : j ≠ x := (Finset.mem_erase.mp hj).1
    rw [Lagrange.basisDivisor, Polynomial.eval_mul, Polynomial.eval_C,
      Polynomial.eval_sub, Polynomial.eval_X, Polynomial.eval_C, id, id,
      zero_sub, GF.neg_eq, GF.sub_eq_add, div_eq_mul_inv, mul_comm,
      add_comm x j]
  have hmain : lagrangeAt0GF (xs.map (fun x => (x, evalPolyGF coeffs x)))
      = (toPoly coeffs).eval 0 := by
    unfold lagrangeAt0GF
    have hfst : ((xs.map (fun x => (x, evalPolyGF coeffs x))).map Prod.fst) = xs := by
      rw [List.map_map]
      exact List.map_id'' (fun x => rfl) xs
    rw [hfst, List.map_map]
    have hfun : ((fun p : GF × GF =>
          p.2 * lagrangeBasisAt0GF xs p.1) ∘ (fun x => (x, evalPolyGF coeffs x)))
        = fun x => evalPolyGF coeffs x * lagrangeBasisAt0GF xs x := rfl
    rw [hfun, ← List.sum_toFinset _ hnodup]
    conv_rhs => rw [key]
    rw [Lagrange.interpolate_apply, Polynomial.eval_finset_sum]
    refine Finset.sum_congr rfl fun x hx => ?_
    rw [Polynomial.eval_mul, Polynomial.eval_C, hbasis x hx, id, eval_toPoly]
  rw [hmain, eval_toPoly, evalPolyGF_zero]

theorem getD_of_lt {α : Type} {l : List α} {i : Nat} (d : α) (h : i < l.length) :
    l.getD i d = l[i] := by
  rw [List.getD_eq_getElem?_getD, List.getElem?_eq_getElem h]
  rfl

theorem lagrangeBasisAt0_lt (xs : List Nat) (xj : Nat) :
    lagrangeBasisAt0 xs xj < 256 := foldr_gfMulN_lt _

theorem mkGF_lagrangeBasisAt0 (xs : List Nat) (xj : Nat)
    (hxs : ∀ x ∈ xs, x < 256) (hxj : xj < 256) :
    mkGF (lagrangeBasisAt0 xs xj)
      = lagrangeBasisAt0GF (xs.map mkGF) (mkGF xj) := by
  unfold lagrangeBasisAt0 lagrangeBasisAt0GF
  rw [mkGF_foldr_mul _ (by
    intro v hv
    obtain ⟨xm, _, rfl⟩ := List.mem_map.mp hv
    exact gfDivN_lt _ _), List.map_map, List.filter_map, List.map_map]
  have hpred : ∀ x ∈ xs,
      ((fun z : GF => decide (z ≠ mkGF xj)) ∘ mkGF) x = decide (x ≠ xj) := by
    intro x hx
    show decide (mkGF x ≠ mkGF xj) = decide (x ≠ xj)
    rw [decide_eq_decide]
    exact not_congr ⟨mkGF_inj (hxs x hx) hxj, fun h => by rw [h]⟩
  rw [List.filter_congr hpred]
  refine congrArg List.prod (List.map_congr_left ?_)
  intro xm hm
  obtain ⟨hmem, hq⟩ := List.mem_filter.mp hm
  have hne : xm ≠ xj := of_decide_eq_true hq
  have hadd : gfAddN xm xj ≠ 0 := by
    show xm ^^^ xj ≠ 0
    rw [Ne, Nat.xor_eq_zero]
    exact hne
  show mkGF (gfDivN xm (gfAddN xm xj)) = mkGF xm / (mkGF xm + mkGF xj)
  rw [mkGF_div _ _ (hxs xm hmem)
      (show gfAddN xm xj < 256 from xor_lt_256 (hxs xm hmem) hxj) hadd,
    mkGF_add _ _ (hxs xm hmem) hxj]

theorem lagrangeAt0_lt (pts : List (Nat × Nat)) : lagrangeAt0 pts < 256 := by
  apply foldr_gfAddN_lt
  intro v hv
  obtain ⟨p, _, rfl⟩ := List.mem_map.mp hv
  exact gfMulN_lt _ _

theorem mkGF_lagrangeAt0 (pts : List (Nat × Nat))
    (h : ∀ p ∈ pts, p.1 < 256 ∧ p.2 < 256) :
    mkGF (lagrangeAt0 pts)
      = lagrangeAt0GF (pts.map (fun p => (mkGF p.1, mkGF p.2))) := by
  unfold lagrangeAt0 lagrangeAt0GF
  rw [mkGF_foldr_add _ (by
    intro v hv
    obtain ⟨p, _, rfl⟩ := List.mem_map.mp hv
    exact gfMulN_lt _ _), List.map_map, List.map_map]
  have hfst : (pts.map (fun p : Nat × Nat => (mkGF p.1, mkGF p.2))).map Prod.fst
      = (pts.map Prod.fst).map mkGF := by
    rw [List.map_map, List.map_map]
    rfl
  rw [hfst]
  refine congrArg List.sum (List.map_congr_left ?_)
  intro p hp
  show mkGF (gfMulN p.2 (lagrangeBasisAt0 (pts.map Prod.fst) p.1))
      = mkGF p.2 * lagrangeBasisAt0GF ((pts.map Prod.fst).map mkGF) (mkGF p.1)
  rw [mkGF_mul _ _ (h p hp).2 (lagrangeBasisAt0_lt _ _),
    mkGF_lagrangeBasisAt0 _ _ (by
      intro x hx
      obtain ⟨q, hq, rfl⟩ := List.mem_map.mp hx
      exact (h q hq).1) (h p hp).1]

/-- Byte-level interpolation at x = 0 recovers the constant coefficient. -/
theorem lagrangeAt0_eval (coeffs : List Nat) (xs : List Nat)
    (hc : ∀ c ∈ coeffs, c < 256) (hx : ∀ x ∈ xs, x < 256)
    (hnodup : xs.Nodup) (hlen : coeffs.length ≤ xs.length) :
    lagrangeAt0 (xs.map (fun x => (x, evalPolyN coeffs x)))
      = coeffs.headD 0 := by
  have hhead : coeffs.headD 0 < 256 := by
    cases coeffs with
    | nil => norm_num
    | cons c0 cs => exact hc c0 (List.mem_cons_self c0 cs)
  apply mkGF_inj (lagrangeAt0_lt _) hhead
  rw [mkGF_lagrangeAt0 _ (by
    intro p hp
    obtain ⟨x, hxm, rfl⟩ := List.mem_map.mp hp
    exact ⟨hx x hxm, evalPolyN_lt _ _ hc⟩)]
  rw [List.map_map]
  have hmapeq : ((fun p : Nat × Nat => (mkGF p.1, mkGF p.2))
        ∘ (fun x => (x, evalPolyN coeffs x)))
      = fun x => (mkGF x, mkGF (evalPolyN coeffs x)) := rfl
  rw [hmapeq,
    List.map_congr_left (g := fun x =>
        (mkGF x, evalPolyGF (coeffs.map mkGF) (mkGF x))) (by
      intro x hxm
      rw [mkGF_evalPolyN _ _ hc (hx x hxm)]),
    show (fun x => (mkGF x, evalPolyGF (coeffs.map mkGF) (mkGF x)))
        = ((fun z => (z, evalPolyGF (coeffs.map mkGF) z)) ∘ mkGF) from rfl,
    ← List.map_map,
    lagrangeAt0GF_eval (coeffs.map mkGF) (xs.map mkGF)
      (hnodup.map_on (fun x hx1 y hy1 hxy => mkGF_inj (hx x hx1) (hx y hy1) hxy))
      (by rw [List.length_map, List.length_map]; exact hlen)]
  cases coeffs with
  | nil => exact mkGF_zero.symm
  | cons c0 cs => rfl

/-! ### The split/combine round-trip -/

theorem shamirSplit_ok (secret : List Nat) (shareCount threshold : Nat)
    (rnd : SplitRnd) (h1 : secret.length ≠ 0) (h2 : 2 ≤ shareCount)
    (h3 : shareCount ≤ 255) (h4 : 2 ≤ threshold) (h5 : threshold ≤ 255)
    (h6 : threshold ≤ shareCount) :
    shamirSplit secret shareCount threshold rnd
      = .ok ((List.range shareCount).map (shamirShare secret threshold rnd)) := by
  unfold shamirSplit
  rw [if_neg h1, if_neg (by omega), if_neg (by omega), if_neg (by omega)]

theorem shamirShare_length (secret : List Nat) (threshold : Nat)
    (rnd : SplitRnd) (j : Nat) :
    (shamirShare secret threshold rnd j).length = secret.length + 1 := by
  simp [shamirShare]

theorem xcoordOf_shamirShare (secret : List Nat) (threshold : Nat)
    (rnd : SplitRnd) (j : Nat) :
    xcoordOf (shamirShare secret threshold rnd j) = rnd.xcoord j := by
  unfold xcoordOf shamirShare
  exact List.getLastD_concat _ _ _

theorem shamirShare_getD (secret : List Nat) (threshold : Nat) (rnd : SplitRnd)
    (j i : Nat) (hi : i < secret.length) :
    (shamirShare secret threshold rnd j).getD i 0
      = evalPolyN
          (secret.getD i 0 :: (List.range (threshold - 1)).map (rnd.coeff i))
          (rnd.xcoord j) := by
  unfold shamirShare
  have hlen : i < ((List.range secret.length).map (fun i =>
      evalPolyN (secret.getD i 0 :: (List.range (threshold - 1)).map (rnd.coeff i))
        (rnd.xcoord j))).length := by
    rw [List.length_map, List.length_range]
    exact hi
  rw [getD_of_lt 0 (by
      rw [List.length_append, List.length_map, List.length_range]
      simp
      omega),
    List.getElem_append_left hlen, List.getElem_map, List.getElem_range]

theorem shamirCombine_ok (shares : List (List Nat))
    (h1 : 2 ≤ shares.length) (h2 : shares.length ≤ 255)
    (h3 : ∀ s ∈ shares, s.length = (shares.headD []).length)
    (h4 : 2 ≤ (shares.headD []).length)
    (h5 : (shares.map xcoordOf).Nodup) :
    shamirCombine shares = .ok (shamirCombineBody shares) := by
  unfold shamirCombine
  rw [if_neg (by omega), if_neg (not_not_intro h3), if_neg (by omega),
    if_neg (not_not_intro h5)]

theorem nodup_lt_length_le (idxs : List Nat) (n : Nat) (hnd : idxs.Nodup)
    (hlt : ∀ j ∈ idxs, j < n) : idxs.length ≤ n := by
  classical
  have h1 : idxs.toFinset ⊆ Finset.range n := by
    intro j hj
    rw [Finset.mem_range]
    exact hlt j (List.mem_toFinset.mp hj)
  have h2 := Finset.card_le_card h1
  rwa [List.toFinset_card_of_nodup hnd, Finset.card_range] at h2

/-- C1: combining any subset of at least `threshold` of the shares produced
by `shamirSplit` recovers the secret byte for byte. -/
theorem shamir_split_combine_roundtrip
    (secret : List Nat) (shareCount threshold : Nat) (rnd : SplitRnd)
    (shares : List (List Nat)) (idxs : List Nat)
    (hsec : ∀ b ∈ secret, b < 256)
    (hlen1 : 1 ≤ secret.length) (hlen2 : secret.length ≤ 10000)
    (ht2 : 2 ≤ threshold) (hts : threshold ≤ shareCount)
    (hs255 : shareCount ≤ 255)
    (hx : ∀ j < shareCount, rnd.xcoord j < 256 ∧ rnd.xcoord j ≠ 0)
    (hxinj : ∀ j1 < shareCount, ∀ j2 < shareCount,
      rnd.xcoord j1 = rnd.xcoord j2 → j1 = j2)
    (hcoef : ∀ i k, rnd.coeff i k < 256)
    (hsplit : shamirSplit secret shareCount threshold rnd = .ok shares)
    (hidx : idxs.Nodup) (hidxlt : ∀ j ∈ idxs, j < shareCount)
    (hidxcard : threshold ≤ idxs.length) :
    shamirCombine (idxs.map (fun j => shares.getD j [])) = .ok secret := by
  rw [shamirSplit_ok secret shareCount threshold rnd (by omega) (by omega)
    hs255 ht2 (by omega) hts] at hsplit
  have hshares : shares = (List.range shareCount).map
      (shamirShare secret threshold rnd) := (Except.ok.inj hsplit).symm
  subst hshares
  have hsel : idxs.map (fun j =>
        ((List.range shareCount).map (shamirShare secret threshold rnd)).getD j [])
      = idxs.map (shamirShare secret threshold rnd) := by
    apply List.map_congr_left
    intro j hj
    have hjlt : j < shareCount := hidxlt j hj
    rw [getD_of_lt [] (by rw [List.length_map, List.length_range]; exact hjlt),
      List.getElem_map, List.getElem_range]
  rw [hsel]
  have hne : idxs ≠ [] := by
    intro h
    rw [h] at hidxcard
    simp at hidxcard
    omega
  obtain ⟨j0, rest, rfl⟩ := List.exists_cons_of_ne_nil hne
  set sel := (j0 :: rest).map (shamirShare secret threshold rnd) with hseldef
  have hheadlen : (sel.headD []).length = secret.length + 1 := by
    rw [hseldef]
    show (shamirShare secret threshold rnd j0).length = secret.length + 1
    exact shamirShare_length secret threshold rnd j0
  have hall : ∀ s ∈ sel, s.length = (sel.headD []).length := by
    intro s hs
    obtain ⟨j, _, rfl⟩ := List.mem_map.mp hs
    rw [hheadlen]
    exact shamirShare_length secret threshold rnd j
  have hxmap : sel.map xcoordOf = (j0 :: rest).map rnd.xcoord := by
    rw [hseldef, List.map_map]
    apply List.map_congr_left
    intro j _
    exact xcoordOf_shamirShare secret threshold rnd j
  have hxnodup : (sel.map xcoordOf).Nodup := by
    rw [hxmap]
    exact hidx.map_on (fun j1 h1 j2 h2 heq =>
      hxinj j1 (hidxlt j1 h1) j2 (hidxlt j2 h2) heq)
  have hcount : sel.length = (j0 :: rest).length := by
    rw [hseldef, List.length_map]
  rw [shamirCombine_ok sel
    (by rw [hcount]; omega)
    (by
      rw [hcount]
      exact le_trans (nodup_lt_length_le _ _ hidx hidxlt) hs255)
    hall
    (by rw [hheadlen]; omega)
    hxnodup]
  congr 1
  unfold shamirCombineBody
  rw [hheadlen]
  have hlenbody : secret.length + 1 - 1 = secret.length := by omega
  rw [hlenbody]
  apply List.ext_getElem
  · rw [List.length_map, List.length_range]
  · intro i hi1 hi2
    rw [List.getElem_map, List.getElem_range]
    have hi : i < secret.length := by
      rwa [List.length_map, List.length_range] at hi1
    have hinner : sel.map (fun s => (xcoordOf s, s.getD i 0))
        = ((j0 :: rest).map rnd.xcoord).map (fun x => (x,
            evalPolyN (secret.getD i 0
              :: (List.range (threshold - 1)).map (rnd.coeff i)) x)) := by
      rw [hseldef, List.map_map, List.map_map]
      apply List.map_congr_left
      intro j hj
      show (xcoordOf (shamirShare secret threshold rnd j),
          (shamirShare secret threshold rnd j).getD i 0) = _
      rw [xcoordOf_shamirShare, shamirShare_getD secret threshold rnd j i hi]
      rfl
    rw [hinner, lagrangeAt0_eval _ _
      (by
        intro c hc
        rcases List.mem_cons.mp hc with rfl | hc2
        · rw [getD_of_lt 0 hi]
          exact hsec _ (List.getElem_mem hi)
        · obtain ⟨k, _, rfl⟩ := List.mem_map.mp hc2
          exact hcoef i k)
      (by
        intro x hxm
        obtain ⟨j, hj, rfl⟩ := List.mem_map.mp hxm
        exact (hx j (hidxlt j hj)).1)
      (hidx.map_on (fun j1 h1 j2 h2 heq =>
        hxinj j1 (hidxlt j1 h1) j2 (hidxlt j2 h2) heq))
      (by
        rw [List.length_cons, List.length_map, List.length_range,
          List.length_map]
        omega)]
    show (secret.getD i 0 :: _).headD 0 = secret[i]
    rw [List.headD_cons, getD_of_lt 0 hi]

/-- C3: `shamirCombine` fails exactly on the four input violations, each with
its own message and checked in order, and succeeds with a byte result on
every other input — including shares originating from different splits. -/
theorem shamirCombine_validation (shares : List (List Nat)) :
    ((∃ bs, shamirCombine shares = .ok bs) ↔
      ((2 ≤ shares.length ∧ shares.length ≤ 255)
        ∧ (∀ s ∈ shares, s.length = (shares.headD []).length)
        ∧ 2 ≤ (shares.headD []).length
        ∧ (shares.map xcoordOf).Nodup))
    ∧ (¬ (2 ≤ shares.length ∧ shares.length ≤ 255) →
        shamirCombine shares
          = .error "shares must have at least 2 and at most 255 elements")
    ∧ ((2 ≤ shares.length ∧ shares.length ≤ 255) →
        ¬ (∀ s ∈ shares, s.length = (shares.headD []).length) →
        shamirCombine shares
          = .error "all shares must have the same byte length")
    ∧ ((2 ≤ shares.length ∧ shares.length ≤ 255) →
        (∀ s ∈ shares, s.length = (shares.headD []).length) →
        ¬ 2 ≤ (shares.headD []).length →
        shamirCombine shares = .error "each share must be at least 2 bytes")
    ∧ ((2 ≤ shares.length ∧ shares.length ≤ 255) →
        (∀ s ∈ shares, s.length = (shares.headD []).length) →
        2 ≤ (shares.headD []).length →
        ¬ (shares.map xcoordOf).Nodup →
        shamirCombine shares
          = .error "shares must contain unique values but a duplicate was found") := by
  unfold shamirCombine
  split_ifs with h1 h2 h3 h4
  · refine ⟨?_, ?_, ?_, ?_, ?_⟩ <;> simp_all <;> omega
  · refine ⟨?_, ?_, ?_, ?_, ?_⟩ <;> simp_all
  · refine ⟨?_, ?_, ?_, ?_, ?_⟩ <;> simp_all
  · refine ⟨?_, ?_, ?_, ?_, ?_⟩ <;> simp_all
  · refine ⟨?_, ?_, ?_, ?_, ?_⟩ <;> simp_all

/-! ## Byte/encoding utilities

`stringToBytes`/`bytesToString` model the convertors' `TextEncoder.encode` /
`TextDecoder.decode` (standard UTF-8); the implementation file
`convertors.ts` is absent from the snapshot, but its behaviour is fixed by
the platform text codecs it delegates to and by its test suite. -/

/-- Standard UTF-8 encoding of one unicode scalar value. -/
def utf8EncodeCharN (c : Nat) : List Nat :=
  if c < 128 then [c]
  else if c < 2048 then [192 + c / 64, 128 + c % 64]
  else if c < 65536 then [224 + c / 4096, 128 + c / 64 % 64, 128 + c % 64]
  else [240 + c / 262144, 128 + c / 4096 % 64, 128 + c / 64 % 64, 128 + c % 64]

/-- UTF-8 encoding of a string as a byte list. -/
def stringToBytes (s : String) : List Nat :=
  s.data.foldr (fun c acc => utf8EncodeCharN c.toNat ++ acc) []

/-- Is the byte a UTF-8 continuation byte? -/
def isCont (b : Nat) : Bool := 128 ≤ b ∧ b < 192

/-- UTF-8 decoding state machine: `count` pending continuation bytes and the
`acc`umulated code point so far; ill-formed input produces U+FFFD. -/
def utf8DecodeGo : Nat → Nat → List Nat → List Char
  | 0, _, [] => []
  | _ + 1, _, [] => [Char.ofNat 65533]
  | 0, _, b :: rest =>
    if b < 128 then Char.ofNat b :: utf8DecodeGo 0 0 rest
    else if b < 192 then Char.ofNat 65533 :: utf8DecodeGo 0 0 rest
    else if b < 224 then utf8DecodeGo 1 (b - 192) rest
    else if b < 240 then utf8DecodeGo 2 (b - 224) rest
    else if b < 248 then utf8DecodeGo 3 (b - 240) rest
    else Char.ofNat 65533 :: utf8DecodeGo 0 0 rest
  | 1, acc, b :: rest =>
    if isCont b then Char.ofNat (acc * 64 + (b - 128)) :: utf8DecodeGo 0 0 rest
    else Char.ofNat 65533 :: utf8DecodeGo 0 0 rest
  | k + 2, acc, b :: rest =>
    if isCont b then utf8DecodeGo (k + 1) (acc * 64 + (b - 128)) rest
    else Char.ofNat 65533 :: utf8DecodeGo 0 0 rest

/-- UTF-8 decoding of a byte list as a string. -/
def bytesToString (bytes : List Nat) : String :=
  String.mk (utf8DecodeGo 0 0 bytes)

theorem char_toNat_valid (c : Char) :
    c.toNat < 55296 ∨ (57343 < c.toNat ∧ c.toNat < 1114112) := c.valid

/-- Decoding a UTF-8 encoded character consumes exactly its bytes. -/
theorem utf8DecodeGo_encode (c : Char) (rest : List Nat) :
    utf8DecodeGo 0 0 (utf8EncodeCharN c.toNat ++ rest)
      = c :: utf8DecodeGo 0 0 rest := by
  have hv := char_toNat_valid c
  set n := c.toNat with hn
  have hcont : ∀ m, isCont (128 + m % 64) = true := by
    intro m
    unfold isCont
    simp
    omega
  by_cases h1 : n < 128
  · rw [show utf8EncodeCharN n = [n] from by unfold utf8EncodeCharN; rw [if_pos h1]]
    show utf8DecodeGo 0 0 (n :: rest) = c :: utf8DecodeGo 0 0 rest
    simp only [utf8DecodeGo]
    rw [if_pos h1, hn, Char.ofNat_toNat]
  · by_cases h2 : n < 2048
    · rw [show utf8EncodeCharN n = [192 + n / 64, 128 + n % 64] from by
        unfold utf8EncodeCharN
        rw [if_neg h1, if_pos h2]]
      show utf8DecodeGo 0 0 ((192 + n / 64) :: (128 + n % 64) :: rest)
          = c :: utf8DecodeGo 0 0 rest
      simp only [utf8DecodeGo]
      rw [if_neg (by omega), if_neg (by omega), if_pos (by omega), hcont]
      rw [if_pos rfl,
        show (192 + n / 64 - 192) * 64 + (128 + n % 64 - 128) = n from by omega,
        hn, Char.ofNat_toNat]
    · by_cases h3 : n < 65536
      · rw [show utf8EncodeCharN n
            = [224 + n / 4096, 128 + n / 64 % 64, 128 + n % 64] from by
          unfold utf8EncodeCharN
          rw [if_neg h1, if_neg h2, if_pos h3]]
        show utf8DecodeGo 0 0 ((224 + n / 4096) :: (128 + n / 64 % 64)
            :: (128 + n % 64) :: rest) = c :: utf8DecodeGo 0 0 rest
        simp only [utf8DecodeGo]
        rw [if_neg (by omega), if_neg (by omega), if_neg (by omega),
          if_pos (by omega), hcont, hcont]
        rw [if_pos rfl, if_pos rfl,
          show ((224 + n / 4096 - 224) * 64 + (128 + n / 64 % 64 - 128)) * 64
            + (128 + n % 64 - 128) = n from by omega,
          hn, Char.ofNat_toNat]
      · rw [show utf8EncodeCharN n = [240 + n / 262144, 128 + n / 4096 % 64,
            128 + n / 64 % 64, 128 + n % 64] from by
          unfold utf8EncodeCharN
          rw [if_neg h1, if_neg h2, if_neg h3]]
        show utf8DecodeGo 0 0 ((240 + n / 262144) :: (128 + n / 4096 % 64)
            :: (128 + n / 64 % 64) :: (128 + n % 64) :: rest)
            = c :: utf8DecodeGo 0 0 rest
        simp only [utf8DecodeGo]
        rw [if_neg (by omega), if_neg (by omega), if_neg (by omega),
          if_neg (by omega), if_pos (by omega), hcont, hcont, hcont]
        rw [if_pos rfl, if_pos rfl, if_pos rfl,
          show (((240 + n / 262144 - 240) * 64 + (128 + n / 4096 % 64 - 128)) * 64
            + (128 + n / 64 % 64 - 128)) * 64 + (128 + n % 64 - 128) = n from by omega,
          hn, Char.ofNat_toNat]

/-- UTF-8 decode inverts UTF-8 encode. -/
theorem bytesToString_stringToBytes (s : String) :
    bytesToString (stringToBytes s) = s := by
  cases s with
  | mk data =>
    show String.mk (utf8DecodeGo 0 0 (data.foldr
      (fun c acc => utf8EncodeCharN c.toNat ++ acc) [])) = String.mk data
    congr 1
    induction data with
    | nil => rfl
    | cons c cs ih =>
      show utf8DecodeGo 0 0 (utf8EncodeCharN c.toNat
        ++ cs.foldr (fun c acc => utf8EncodeCharN c.toNat ++ acc) []) = c :: cs
      rw [utf8DecodeGo_encode, ih]

/-! ### Hexadecimal encoding

`bytesToHex` follows the adapters' `bytes.map(b => b.toString(16).padStart(2,
'0')).join('')`; `hexToBytes` follows the adapters' `hex.match(/.{1,2}/g)`
chunking with `parseInt(group, 16)` and `Uint8Array` coercion
(`src/unnamed/part_005`, `encoding.native.ts`). -/

/-- The lowercase hexadecimal digits. -/
def hexDigits : List Char := "0123456789abcdef".data

/-- Two lowercase hex characters of a byte. -/
def byteToHex (b : Nat) : List Char :=
  [hexDigits.getD (b / 16) '0', hexDigits.getD (b % 16) '0']

/-- Lowercase hexadecimal rendering of a byte list. -/
def bytesToHex (bytes : List Nat) : String :=
  String.mk (bytes.foldr (fun b acc => byteToHex b ++ acc) [])

/-- A JavaScript line terminator (not matched by `.` in a regex). -/
def isLineTerm (ch : Char) : Bool :=
  ch = Char.ofNat 10 ∨ ch = Char.ofNat 13
    ∨ ch = Char.ofNat 8232 ∨ ch = Char.ofNat 8233

/-- The groups produced by `hex.match(/.{1,2}/g)`: pairs of consecutive
non-line-terminator characters, a trailing single character kept alone. -/
def chunkHex : List Char → List (List Char)
  | [] => []
  | a :: r =>
    if isLineTerm a then chunkHex r
    else match r with
      | [] => [[a]]
      | b :: r2 =>
        if isLineTerm b then [a] :: chunkHex r2
        else [a, b] :: chunkHex r2

/-- The value of a hexadecimal digit character, if any. -/
def hexDigitVal (ch : Char) : Option Nat :=
  if '0' ≤ ch ∧ ch ≤ '9' then some (ch.toNat - 48)
  else if 'a' ≤ ch ∧ ch ≤ 'f' then some (ch.toNat - 87)
  else if 'A' ≤ ch ∧ ch ≤ 'F' then some (ch.toNat - 55)
  else none

/-- Accumulate the maximal hexadecimal-digit prefix. -/
def hexPrefixVal : List Char → Nat → Nat
  | [], acc => acc
  | ch :: r, acc =>
    match hexDigitVal ch with
    | some d => hexPrefixVal r (16 * acc + d)
    | none => acc

/-- JavaScript `StrWhiteSpaceChar` relevant to `parseInt` trimming. -/
def isJsSpace (ch : Char) : Bool :=
  ch = ' ' ∨ ch = Char.ofNat 9 ∨ ch = Char.ofNat 11 ∨ ch = Char.ofNat 12
    ∨ ch = Char.ofNat 160 ∨ ch = Char.ofNat 65279

/-- Strip an optional `0x` / `0X` prefix, as `parseInt(s, 16)` does. -/
def stripHexPrefix : List Char → List Char
  | '0' :: x :: r => if x = 'x' ∨ x = 'X' then r else '0' :: x :: r
  | l => l

/-- The maximal hex-digit prefix value when the first character is a hex
digit; `none` (NaN) otherwise. -/
def hexBodyCore (l : List Char) : Option Nat :=
  match l with
  | [] => none
  | ch :: _ =>
    if (hexDigitVal ch).isSome then some (hexPrefixVal l 0) else none

/-- Digits of `parseInt(s, 16)` after sign handling: optional `0x`/`0X`
prefix, then the maximal hex-digit prefix; `none` when no digit is found. -/
def jsParseIntHexBody (l : List Char) : Option Nat :=
  hexBodyCore (stripHexPrefix l)

/-- `parseInt(s, 16)`: whitespace trimming, optional sign, hex prefix;
`none` models `NaN`. -/
def jsParseIntHex (g : List Char) : Option Int :=
  match g.dropWhile isJsSpace with
  | '-' :: r => (jsParseIntHexBody r).map (fun v => -(Int.ofNat v))
  | '+' :: r => (jsParseIntHexBody r).map (fun v => Int.ofNat v)
  | t => (jsParseIntHexBody t).map (fun v => Int.ofNat v)

/-- `Uint8Array` element coercion: `NaN` becomes 0, integers wrap mod 256. -/
def toUint8 (v : Option Int) : Nat :=
  match v with
  | none => 0
  | some i => (i % 256).toNat

/-- The adapters' `hexToBytes`. -/
def hexToBytes (s : String) : List Nat :=
  (chunkHex s.data).map (fun g => toUint8 (jsParseIntHex g))

/-- The `BASE64_CHARS` lookup table. -/
def base64Chars : List Char :=
  "ABCDEFGHIJKLMNOPQRSTUVWXYZabcdefghijklmnopqrstuvwxyz0123456789+/".data

/-- One output character of the encoder: `BASE64_CHARS[i]`. -/
def b64Char (i : Nat) : Char := base64Chars.getD i 'A'

/-- The encoder's 3-byte chunk loop; `a >> 2` is `a / 4`,
`((a & 3) << 4) | (b >> 4)` is `a % 4 * 16 + b / 16`, and so on, the
or-ed fields being disjoint for bytes below 256. -/
def b64EncodeGo : List Nat → List Char
  | [] => []
  | [a] => [b64Char (a / 4), b64Char (a % 4 * 16), '=', '=']
  | [a, b] =>
      [b64Char (a / 4), b64Char (a % 4 * 16 + b / 16), b64Char (b % 16 * 4), '=']
  | a :: b :: c :: r =>
      b64Char (a / 4) :: b64Char (a % 4 * 16 + b / 16)
        :: b64Char (b % 16 * 4 + c / 64) :: b64Char (c % 64) :: b64EncodeGo r

/-- The adapters' `bytesToBase64`. -/
def bytesToBase64 (bytes : List Nat) : String :=
  String.mk (b64EncodeGo bytes)

/-- `BASE64_CHARS.indexOf(ch)`: -1 when the character is absent
(`List.indexOf` returns the table length 64 in that case). -/
def b64IndexOf (ch : Char) : Int :=
  let i := base64Chars.indexOf ch
  if i < 64 then (i : Int) else -1

/-- The decoder's byte formulas, with floor division and floor modulus
standing for the source's arithmetic shifts and masks. -/
def b64Byte1 (a b : Int) : Nat := toUint8 (some (a * 4 + Int.fdiv b 16))

def b64Byte2 (b c : Int) : Nat :=
  toUint8 (some (Int.fmod b 16 * 16 + Int.fdiv c 4))

def b64Byte3 (c d : Int) : Nat := toUint8 (some (Int.fmod c 4 * 64 + d))

/-- The decoder's 4-character chunk loop over the cleaned input; a missing
character read as `cleanBase64[i+j] ?? \x27\x27` has `indexOf` 0, and the
`i+2 < len` / `i+3 < len` guards correspond to the chunk shapes. -/
def b64DecodeChunks : List Char → List Nat
  | [] => []
  | [x0] => [b64Byte1 (b64IndexOf x0) 0]
  | [x0, x1] => [b64Byte1 (b64IndexOf x0) (b64IndexOf x1)]
  | [x0, x1, x2] =>
      [b64Byte1 (b64IndexOf x0) (b64IndexOf x1),
       b64Byte2 (b64IndexOf x1) (b64IndexOf x2)]
  | x0 :: x1 :: x2 :: x3 :: r =>
      b64Byte1 (b64IndexOf x0) (b64IndexOf x1)
        :: b64Byte2 (b64IndexOf x1) (b64IndexOf x2)
        :: b64Byte3 (b64IndexOf x2) (b64IndexOf x3)
        :: b64DecodeChunks r

/-- URL-safe normalisation: `-` to `+`, `_` to `/`. -/
def b64Normalize (ch : Char) : Char :=
  if ch = '-' then '+' else if ch = '_' then '/' else ch

/-- The adapters' `base64ToBytes`: normalise, strip all `=`, decode in
4-character chunks, keep `3 * len / 4` bytes. -/
def base64ToBytes (s : String) : List Nat :=
  let clean := (s.data.map b64Normalize).filter (fun ch => ch ≠ '=')
  (b64DecodeChunks clean).take (3 * clean.length / 4)

theorem b64IndexOf_b64Char : ∀ i < 64, b64IndexOf (b64Char i) = (i : Int) := by
  decide

theorem b64Char_clean :
    ∀ i < 64, b64Normalize (b64Char i) = b64Char i ∧ b64Char i ≠ '=' := by
  decide

theorem b64Byte1_spec (a x : Nat) (ha : a < 256) (hx : x / 16 = a % 4) :
    b64Byte1 ((a / 4 : Nat) : Int) (x : Int) = a := by
  simp only [b64Byte1, toUint8]
  rw [show (16 : Int) = ((16 : Nat) : Int) from rfl, ← Int.ofNat_fdiv]
  omega

theorem b64Byte2_spec (b x y : Nat) (hb : b < 256) (hx : x % 16 = b / 16)
    (hy : y / 4 = b % 16) :
    b64Byte2 (x : Int) (y : Int) = b := by
  simp only [b64Byte2, toUint8]
  rw [show (16 : Int) = ((16 : Nat) : Int) from rfl, ← Int.ofNat_fmod,
    show (4 : Int) = ((4 : Nat) : Int) from rfl, ← Int.ofNat_fdiv]
  omega

theorem b64Byte3_spec (c y z : Nat) (hc : c < 256) (hy : y % 4 = c / 64)
    (hz : z = c % 64) :
    b64Byte3 (y : Int) (z : Int) = c := by
  simp only [b64Byte3, toUint8]
  rw [show (4 : Int) = ((4 : Nat) : Int) from rfl, ← Int.ofNat_fmod]
  omega

theorem b64EqNorm : b64Normalize '=' = '=' := by decide

theorem b64_decode_encode (bytes : List Nat) (h : ∀ b ∈ bytes, b < 256) :
    b64DecodeChunks (((b64EncodeGo bytes).map b64Normalize).filter
        (fun ch => ch ≠ '=')) = bytes
    ∧ 3 * (((b64EncodeGo bytes).map b64Normalize).filter
        (fun ch => ch ≠ '=')).length / 4 = bytes.length := by
  induction bytes using b64EncodeGo.induct with
  | case1 => exact ⟨rfl, rfl⟩
  | case2 a =>
    have ha := h a (List.mem_cons_self a [])
    have h1 := b64Char_clean (a / 4) (by omega)
    have h2 := b64Char_clean (a % 4 * 16) (by omega)
    have hclean : (((b64EncodeGo [a]).map b64Normalize).filter
        (fun ch => ch ≠ '=')) = [b64Char (a / 4), b64Char (a % 4 * 16)] := by
      show ((([b64Char (a / 4), b64Char (a % 4 * 16), '=', '=']).map
        b64Normalize).filter (fun ch => ch ≠ '=')) = _
      rw [List.map_cons, List.map_cons, List.map_cons, List.map_cons,
        List.map_nil, h1.1, h2.1, b64EqNorm]
      simp [List.filter_cons, h1.2, h2.2]
    rw [hclean]
    constructor
    · show [b64Byte1 (b64IndexOf (b64Char (a / 4)))
        (b64IndexOf (b64Char (a % 4 * 16)))] = [a]
      rw [b64IndexOf_b64Char _ (by omega), b64IndexOf_b64Char _ (by omega),
        b64Byte1_spec a (a % 4 * 16) ha (by omega)]
    · simp
  | case3 a b =>
    have ha := h a (List.mem_cons_self a [b])
    have hb := h b (List.mem_cons_of_mem a (List.mem_cons_self b []))
    have h1 := b64Char_clean (a / 4) (by omega)
    have h2 := b64Char_clean (a % 4 * 16 + b / 16) (by omega)
    have h3 := b64Char_clean (b % 16 * 4) (by omega)
    have hclean : (((b64EncodeGo [a, b]).map b64Normalize).filter
        (fun ch => ch ≠ '=')) = [b64Char (a / 4),
          b64Char (a % 4 * 16 + b / 16), b64Char (b % 16 * 4)] := by
      show ((([b64Char (a / 4), b64Char (a % 4 * 16 + b / 16),
        b64Char (b % 16 * 4), '=']).map b64Normalize).filter
          (fun ch => ch ≠ '=')) = _
      rw [List.map_cons, List.map_cons, List.map_cons, List.map_cons,
        List.map_nil, h1.1, h2.1, h3.1, b64EqNorm]
      simp [List.filter_cons, h1.2, h2.2, h3.2]
    rw [hclean]
    constructor
    · show [b64Byte1 (b64IndexOf (b64Char (a / 4)))
          (b64IndexOf (b64Char (a % 4 * 16 + b / 16))),
        b64Byte2 (b64IndexOf (b64Char (a % 4 * 16 + b / 16)))
          (b64IndexOf (b64Char (b % 16 * 4)))] = [a, b]
      rw [b64IndexOf_b64Char _ (by omega), b64IndexOf_b64Char _ (by omega),
        b64IndexOf_b64Char _ (by omega),
        b64Byte1_spec a (a % 4 * 16 + b / 16) ha (by omega),
        b64Byte2_spec b (a % 4 * 16 + b / 16) (b % 16 * 4) hb (by omega)
          (by omega)]
    · simp
  | case4 a b c r ih =>
    have ha := h a (List.mem_cons_self a (b :: c :: r))
    have hb := h b (List.mem_cons_of_mem a (List.mem_cons_self b (c :: r)))
    have hc := h c (List.mem_cons_of_mem a (List.mem_cons_of_mem b
      (List.mem_cons_self c r)))
    have hr : ∀ x ∈ r, x < 256 := fun x hx => h x
      (List.mem_cons_of_mem a (List.mem_cons_of_mem b
        (List.mem_cons_of_mem c hx)))
    have h1 := b64Char_clean (a / 4) (by omega)
    have h2 := b64Char_clean (a % 4 * 16 + b / 16) (by omega)
    have h3 := b64Char_clean (b % 16 * 4 + c / 64) (by omega)
    have h4 := b64Char_clean (c % 64) (by omega)
    have hclean : (((b64EncodeGo (a :: b :: c :: r)).map
        b64Normalize).filter (fun ch => ch ≠ '='))
          = b64Char (a / 4) :: b64Char (a % 4 * 16 + b / 16)
            :: b64Char (b % 16 * 4 + c / 64) :: b64Char (c % 64)
            :: (((b64EncodeGo r).map b64Normalize).filter
              (fun ch => ch ≠ '=')) := by
      show (((b64Char (a / 4) :: b64Char (a % 4 * 16 + b / 16)
        :: b64Char (b % 16 * 4 + c / 64) :: b64Char (c % 64)
        :: b64EncodeGo r).map b64Normalize).filter (fun ch => ch ≠ '=')) = _
      rw [List.map_cons, List.map_cons, List.map_cons, List.map_cons,
        h1.1, h2.1, h3.1, h4.1]
      simp only [List.filter_cons]
      rw [if_pos (by simpa using h1.2), if_pos (by simpa using h2.2),
        if_pos (by simpa using h3.2), if_pos (by simpa using h4.2)]
    rw [hclean]
    obtain ⟨ih1, ih2⟩ := ih hr
    constructor
    · show b64Byte1 (b64IndexOf (b64Char (a / 4)))
          (b64IndexOf (b64Char (a % 4 * 16 + b / 16)))
        :: b64Byte2 (b64IndexOf (b64Char (a % 4 * 16 + b / 16)))
          (b64IndexOf (b64Char (b % 16 * 4 + c / 64)))
        :: b64Byte3 (b64IndexOf (b64Char (b % 16 * 4 + c / 64)))
          (b64IndexOf (b64Char (c % 64)))
        :: b64DecodeChunks (((b64EncodeGo r).map b64Normalize).filter
          (fun ch => ch ≠ '=')) = a :: b :: c :: r
      rw [b64IndexOf_b64Char _ (by omega), b64IndexOf_b64Char _ (by omega),
        b64IndexOf_b64Char _ (by omega), b64IndexOf_b64Char _ (by omega),
        b64Byte1_spec a (a % 4 * 16 + b / 16) ha (by omega),
        b64Byte2_spec b (a % 4 * 16 + b / 16) (b % 16 * 4 + c / 64) hb
          (by omega) (by omega),
        b64Byte3_spec c (b % 16 * 4 + c / 64) (c % 64) hc (by omega) rfl,
        ih1]
    · rw [List.length_cons, List.length_cons, List.length_cons,
        List.length_cons, List.length_cons, List.length_cons,
        List.length_cons]
      omega

/-- Base64 decode inverts base64 encode on byte lists. -/
theorem base64ToBytes_bytesToBase64 (bytes : List Nat)
    (h : ∀ b ∈ bytes, b < 256) :
    base64ToBytes (bytesToBase64 bytes) = bytes := by
  obtain ⟨h1, h2⟩ := b64_decode_encode bytes h
  show (b64DecodeChunks (((b64EncodeGo bytes).map b64Normalize).filter
      (fun ch => ch ≠ '='))).take
    (3 * (((b64EncodeGo bytes).map b64Normalize).filter
      (fun ch => ch ≠ '=')).length / 4) = bytes
  rw [h1, h2, List.take_length]

theorem b64table_ne_quote : ∀ ch ∈ base64Chars, ch ≠ '"' := by decide

theorem b64Char_ne_quote (i : Nat) : b64Char i ≠ '"' := by
  unfold b64Char
  by_cases hi : i < base64Chars.length
  · rw [List.getD_eq_getElem base64Chars 'A' hi]
    exact b64table_ne_quote _ (base64Chars.getElem_mem hi)
  · rw [List.getD_eq_default _ _ (le_of_not_lt hi)]
    decide

/-- No character of a base64 rendering is a double quote. -/
theorem bytesToBase64_ne_quote (bytes : List Nat) :
    ∀ ch ∈ (bytesToBase64 bytes).data, ch ≠ '"' := by
  show ∀ ch ∈ b64EncodeGo bytes, ch ≠ '"'
  induction bytes using b64EncodeGo.induct with
  | case1 => intro ch hch; simp [b64EncodeGo] at hch
  | case2 a =>
    intro ch hch
    simp only [b64EncodeGo, List.mem_cons, List.not_mem_nil, or_false] at hch
    rcases hch with rfl | rfl | rfl | rfl
    · exact b64Char_ne_quote _
    · exact b64Char_ne_quote _
    · decide
    · decide
  | case3 a b =>
    intro ch hch
    simp only [b64EncodeGo, List.mem_cons, List.not_mem_nil, or_false] at hch
    rcases hch with rfl | rfl | rfl | rfl
    · exact b64Char_ne_quote _
    · exact b64Char_ne_quote _
    · exact b64Char_ne_quote _
    · decide
  | case4 a b c r ih =>
    intro ch hch
    simp only [b64EncodeGo, List.mem_cons] at hch
    rcases hch with rfl | rfl | rfl | rfl | hch
    · exact b64Char_ne_quote _
    · exact b64Char_ne_quote _
    · exact b64Char_ne_quote _
    · exact b64Char_ne_quote _
    · exact ih ch hch

/-! ### AES-GCM envelope (`src/functions/crypto/encryption.ts`)

`encryptWithCipher` returns `JSON.stringify({ iv, ciphertext })` with both
fields base64 strings; `decryptWithCipher` applies `JSON.parse` and decodes
the two fields.  `JSON.stringify` / `JSON.parse` are environment builtins,
modelled here on the envelope shape only: base64 payloads contain no
characters needing JSON escaping. -/

/-- `JSON.stringify({ iv, ciphertext })` for base64 string fields. -/
def mkEnvelopeJson (iv ciphertext : String) : String :=
  "\x7b\"iv\":\"" ++ iv ++ "\",\"ciphertext\":\"" ++ ciphertext ++ "\"\x7d"

/-- Characters of a JSON string field up to its closing quote. -/
def takeUntilQuote : List Char → List Char
  | [] => []
  | ch :: r => if ch = '"' then [] else ch :: takeUntilQuote r

/-- The characters after the closing quote. -/
def dropThroughQuote : List Char → List Char
  | [] => []
  | ch :: r => if ch = '"' then r else dropThroughQuote r

/-- Strip an expected literal prefix. -/
def stripPrefixChars : List Char → List Char → Option (List Char)
  | [], l => some l
  | _ :: _, [] => none
  | p :: ps, c :: cs => if c = p then stripPrefixChars ps cs else none

/-- `JSON.parse` restricted to the envelope shape: yields the `iv` and
`ciphertext` fields, `none` when the shape does not match. -/
def parseEnvelopeJson (s : String) : Option (String × String) :=
  match stripPrefixChars ("\x7b\"iv\":\"").data s.data with
  | none => none
  | some r1 =>
    match stripPrefixChars (",\"ciphertext\":\"").data (dropThroughQuote r1) with
    | none => none
    | some r2 => some (String.mk (takeUntilQuote r1), String.mk (takeUntilQuote r2))

theorem stripPrefixChars_append (p l : List Char) :
    stripPrefixChars p (p ++ l) = some l := by
  induction p with
  | nil => rfl
  | cons a ps ih =>
    show stripPrefixChars (a :: ps) (a :: (ps ++ l)) = some l
    rw [stripPrefixChars, if_pos rfl, ih]

theorem takeUntilQuote_append (l r : List Char)
    (h : ∀ ch ∈ l, ch ≠ '"') :
    takeUntilQuote (l ++ '"' :: r) = l := by
  induction l with
  | nil =>
    show takeUntilQuote ('"' :: r) = []
    rw [takeUntilQuote, if_pos rfl]
  | cons a ls ih =>
    show takeUntilQuote (a :: (ls ++ '"' :: r)) = a :: ls
    rw [takeUntilQuote, if_neg (by simpa using h a (List.mem_cons_self a ls)),
      ih (fun ch hch => h ch (List.mem_cons_of_mem a hch))]

theorem dropThroughQuote_append (l r : List Char)
    (h : ∀ ch ∈ l, ch ≠ '"') :
    dropThroughQuote (l ++ '"' :: r) = r := by
  induction l with
  | nil =>
    show dropThroughQuote ('"' :: r) = r
    rw [dropThroughQuote, if_pos rfl]
  | cons a ls ih =>
    show dropThroughQuote (a :: (ls ++ '"' :: r)) = r
    rw [dropThroughQuote, if_neg (by simpa using h a (List.mem_cons_self a ls)),
      ih (fun ch hch => h ch (List.mem_cons_of_mem a hch))]

/-- `JSON.parse` inverts `JSON.stringify` on quote-free payloads. -/
theorem parseEnvelopeJson_mkEnvelopeJson (iv ct : String)
    (hiv : ∀ ch ∈ iv.data, ch ≠ '"') (hct : ∀ ch ∈ ct.data, ch ≠ '"') :
    parseEnvelopeJson (mkEnvelopeJson iv ct) = some (iv, ct) := by
  have hdata : (mkEnvelopeJson iv ct).data
      = ("\x7b\"iv\":\"").data ++ (iv.data ++ '"' :: ((",\"ciphertext\":\"").data
        ++ (ct.data ++ '"' :: ['\x7d']))) := by
    show ("\x7b\"iv\":\"" ++ iv ++ "\",\"ciphertext\":\"" ++ ct
      ++ "\"\x7d").data = _
    rw [String.data_append, String.data_append, String.data_append,
      String.data_append]
    simp only [List.append_assoc, List.cons_append]
  rw [parseEnvelopeJson, hdata, stripPrefixChars_append]
  simp only [dropThroughQuote_append _ _ hiv, stripPrefixChars_append,
    takeUntilQuote_append _ _ hiv, takeUntilQuote_append _ _ hct]
theorem utf8EncodeCharN_lt (c : Nat) (hc : c < 1114112) :
    ∀ b ∈ utf8EncodeCharN c, b < 256 := by
  intro b hb
  unfold utf8EncodeCharN at hb
  split_ifs at hb with h1 h2 h3 <;> simp at hb <;> omega

/-- UTF-8 output bytes are bytes. -/
theorem stringToBytes_lt (s : String) : ∀ b ∈ stringToBytes s, b < 256 := by
  show ∀ b ∈ s.data.foldr (fun c acc => utf8EncodeCharN c.toNat ++ acc) [],
    b < 256
  induction s.data with
  | nil => simp
  | cons c cs ih =>
    intro b hb
    simp only [List.foldr_cons, List.mem_append] at hb
    rcases hb with hb | hb
    · refine utf8EncodeCharN_lt c.toNat ?_ b hb
      rcases char_toNat_valid c with h | ⟨h1, h2⟩ <;> omega
    · exact ih b hb

/-- An authenticated cipher as exposed by WebCrypto `crypto.subtle` for a
fixed key and algorithm: `enc iv pt` is the ciphertext `subtle.encrypt`
produces, `dec iv ct` is `none` exactly when `subtle.decrypt` rejects.
`enc_lt` says ciphertext entries are bytes; `dec_enc` states the AEAD
round-trip contract of AES-GCM under matching key and IV. -/
structure AeadCipher where
  enc : List Nat → List Nat → List Nat
  dec : List Nat → List Nat → Option (List Nat)
  enc_lt : ∀ iv pt, (∀ b ∈ pt, b < 256) → ∀ b ∈ enc iv pt, b < 256
  dec_enc : ∀ iv pt, (∀ b ∈ pt, b < 256) → dec iv (enc iv pt) = some pt

/-- `encryptWithCipher` (`encryption.ts`): draw an IV from the platform
RNG (passed here as the byte list `getRandomValues` filled), AES-GCM
encrypt the UTF-8 encoded data, and return the JSON envelope with both
fields base64 encoded. -/
def encryptWithCipher (cipher : AeadCipher) (iv : List Nat)
    (data : String) : String :=
  mkEnvelopeJson (bytesToBase64 iv)
    (bytesToBase64 (cipher.enc iv (stringToBytes data)))

/-- `decryptWithCipher` (`encryption.ts`): `JSON.parse` the envelope,
base64 decode both fields, AES-GCM decrypt, UTF-8 decode. -/
def decryptWithCipher (cipher : AeadCipher)
    (encryptedDataJSON : String) : Option String :=
  match parseEnvelopeJson encryptedDataJSON with
  | none => none
  | some (ivB64, ctB64) =>
    (cipher.dec (base64ToBytes ivB64) (base64ToBytes ctB64)).map bytesToString

/-- C6: for every string `data` (empty, ASCII, or multi-byte UTF-8, of any
byte length) and every AES-GCM key and fresh IV — abstracted as an
`AeadCipher` satisfying the AEAD round-trip contract — decrypting the
envelope produced by `encryptWithCipher` with the same key returns exactly
`data`. -/
theorem encryptWithCipher_decryptWithCipher_roundtrip (cipher : AeadCipher)
    (iv : List Nat) (data : String) (hiv : ∀ b ∈ iv, b < 256) :
    decryptWithCipher cipher (encryptWithCipher cipher iv data)
      = some data := by
  unfold encryptWithCipher decryptWithCipher
  rw [parseEnvelopeJson_mkEnvelopeJson _ _ (bytesToBase64_ne_quote iv)
    (bytesToBase64_ne_quote _)]
  show (cipher.dec (base64ToBytes (bytesToBase64 iv))
    (base64ToBytes (bytesToBase64 (cipher.enc iv
      (stringToBytes data))))).map bytesToString = some data
  rw [base64ToBytes_bytesToBase64 iv hiv,
    base64ToBytes_bytesToBase64 _ (cipher.enc_lt iv _ (stringToBytes_lt data)),
    cipher.dec_enc iv _ (stringToBytes_lt data)]
  show some (bytesToString (stringToBytes data)) = some data
  rw [bytesToString_stringToBytes]

/-- A trivial cipher meeting the AEAD contract, for concrete evaluation. -/
def idCipher : AeadCipher where
  enc := fun _ pt => pt
  dec := fun _ ct => some ct
  enc_lt := fun _ _ h => h
  dec_enc := fun _ _ _ => rfl

theorem encryptWithCipher_roundtrip_witness :
    (∀ b ∈ [7, 250], b < 256)
    ∧ decryptWithCipher idCipher
        (encryptWithCipher idCipher [7, 250] "日本語🎉")
      = some "日本語🎉" :=
  ⟨by decide, encryptWithCipher_decryptWithCipher_roundtrip idCipher
    [7, 250] "日本語🎉" (by decide)⟩

/-! ### Key shards (`spiltKeyIntoShards`, `combineShardsBuildWallet`) -/

theorem hexDigits_getD_mem (i : Nat) : hexDigits.getD i '0' ∈ hexDigits := by
  by_cases hi : i < hexDigits.length
  · rw [List.getD_eq_getElem hexDigits '0' hi]
    exact hexDigits.getElem_mem hi
  · rw [List.getD_eq_default _ _ (le_of_not_lt hi)]
    decide

theorem bytesToHex_length (bytes : List Nat) :
    (bytesToHex bytes).length = 2 * bytes.length := by
  show (bytes.foldr (fun b acc => byteToHex b ++ acc) []).length = _
  induction bytes with
  | nil => rfl
  | cons a r ih =>
    simp only [List.foldr_cons, List.length_append, ih, List.length_cons]
    have h2 : (byteToHex a).length = 2 := by simp [byteToHex]
    omega

theorem bytesToHex_chars (bytes : List Nat) :
    ∀ ch ∈ (bytesToHex bytes).data, ch ∈ hexDigits := by
  show ∀ ch ∈ bytes.foldr (fun b acc => byteToHex b ++ acc) [], ch ∈ hexDigits
  induction bytes with
  | nil => simp
  | cons a r ih =>
    intro ch hch
    simp only [List.foldr_cons, List.mem_append] at hch
    rcases hch with hch | hch
    · simp only [byteToHex, List.mem_cons, List.not_mem_nil, or_false] at hch
      rcases hch with rfl | rfl <;> exact hexDigits_getD_mem _
    · exact ih ch hch

theorem utf8EncodeCharN_ne_nil (c : Nat) : utf8EncodeCharN c ≠ [] := by
  unfold utf8EncodeCharN
  split_ifs <;> simp

theorem stringToBytes_eq_nil_iff (s : String) :
    stringToBytes s = [] ↔ s = "" := by
  constructor
  · intro h
    cases s with
    | mk data =>
      cases data with
      | nil => rfl
      | cons c cs =>
        exfalso
        have hsplit : stringToBytes (String.mk (c :: cs))
            = utf8EncodeCharN c.toNat ++ cs.foldr
              (fun c acc => utf8EncodeCharN c.toNat ++ acc) [] := rfl
        rw [hsplit] at h
        exact utf8EncodeCharN_ne_nil c.toNat (List.append_eq_nil.mp h).1
  · intro h
    rw [h]
    rfl

/-- Modelled from the spec: `spiltKeyIntoShards(secret)` UTF-8-encodes the
input, calls `shamirSplit` with fixed shareCount 3 and threshold 2, and hex
encodes each resulting share; split errors propagate. -/
def spiltKeyIntoShards (secret : String) (rnd : SplitRnd) :
    Except String (List String) :=
  (shamirSplit (stringToBytes secret) 3 2 rnd).map
    (fun shares => shares.map bytesToHex)

/-- C4: `spiltKeyIntoShards` fails with "secret cannot be empty" exactly on
the empty string, and otherwise returns exactly 3 lowercase-hexadecimal
shards, each of string length `(byteLength(secret) + 1) * 2`. -/
theorem spiltKeyIntoShards_spec (secret : String) (rnd : SplitRnd) :
    (secret = "" → spiltKeyIntoShards secret rnd
      = .error "secret cannot be empty")
    ∧ (secret ≠ "" → ∃ shards, spiltKeyIntoShards secret rnd = .ok shards
        ∧ shards.length = 3
        ∧ ∀ sh ∈ shards,
            sh.length = ((stringToBytes secret).length + 1) * 2
            ∧ ∀ ch ∈ sh.data, ch ∈ hexDigits) := by
  constructor
  · intro h
    subst h
    rfl
  · intro h
    have hne : (stringToBytes secret).length ≠ 0 := by
      intro hlen
      exact h ((stringToBytes_eq_nil_iff secret).mp
        (List.length_eq_zero.mp hlen))
    refine ⟨((List.range 3).map (shamirShare (stringToBytes secret) 2
      rnd)).map bytesToHex, ?_, by simp, ?_⟩
    · show (shamirSplit (stringToBytes secret) 3 2 rnd).map
        (fun shares => shares.map bytesToHex) = _
      rw [shamirSplit_ok (stringToBytes secret) 3 2 rnd hne (by omega)
        (by omega) (by omega) (by omega) (by omega)]
      rfl
    · intro sh hsh
      obtain ⟨share, hmem, rfl⟩ := List.mem_map.mp hsh
      obtain ⟨j, -, rfl⟩ := List.mem_map.mp hmem
      refine ⟨?_, bytesToHex_chars _⟩
      rw [bytesToHex_length, shamirShare_length]
      omega

/-- A concrete deterministic randomness source for witnesses. -/
def testRnd : SplitRnd where
  xcoord := fun j => j + 1
  coeff := fun _ _ => 7

theorem spiltKeyIntoShards_witness :
    ("ab" : String) ≠ ""
    ∧ (∃ shards, spiltKeyIntoShards "ab" testRnd = .ok shards
        ∧ shards.length = 3
        ∧ ∀ sh ∈ shards,
            sh.length = ((stringToBytes "ab").length + 1) * 2
            ∧ ∀ ch ∈ sh.data, ch ∈ hexDigits) :=
  ⟨by decide, (spiltKeyIntoShards_spec "ab" testRnd).2 (by decide)⟩

/-- The shares of a concrete 3-of-2 split, for the round-trip witness. -/
def testShares : List (List Nat) :=
  (List.range 3).map (shamirShare [1, 2, 3] 2 testRnd)

theorem shamir_roundtrip_witness :
    shamirSplit [1, 2, 3] 3 2 testRnd = .ok testShares
    ∧ shamirCombine ([0, 2].map (fun j => testShares.getD j []))
      = .ok [1, 2, 3] :=
  ⟨rfl, shamir_split_combine_roundtrip [1, 2, 3] 3 2 testRnd testShares
    [0, 2] (by decide) (by decide) (by decide) (by decide) (by decide)
    (by decide) (by decide) (by decide) (fun i k => by show (7 : Nat) < 256; decide) rfl
    (by decide) (by decide) (by decide)⟩

/-- `combineShardsBuildWallet` (`combine-shards-build-wallet.ts`): hex
decode both shards, `shamirCombine`, UTF-8 decode the result into the
mnemonic returned as `key`; the per-chain wallet constructions consume the
same mnemonic and are external collaborators out of scope.  `networkId`
only selects networks for those collaborators. -/
def combineShardsBuildWallet (_networkId : Nat)
    (keyShard1 keyShard2 : String) : Except String String :=
  (shamirCombine [hexToBytes keyShard1, hexToBytes keyShard2]).map
    bytesToString

/-- C5: the returned key equals the UTF-8 decoding of `shamirCombine`
applied to the hex-decodings of the two shards, and every `shamirCombine`
error propagates to the caller verbatim. -/
theorem combineShardsBuildWallet_spec (networkId : Nat)
    (keyShard1 keyShard2 : String) :
    (∀ bs, shamirCombine [hexToBytes keyShard1, hexToBytes keyShard2]
        = .ok bs →
      combineShardsBuildWallet networkId keyShard1 keyShard2
        = .ok (bytesToString bs))
    ∧ (∀ e, shamirCombine [hexToBytes keyShard1, hexToBytes keyShard2]
        = .error e →
      combineShardsBuildWallet networkId keyShard1 keyShard2
        = .error e) := by
  constructor <;> intro x hx <;>
    simp [combineShardsBuildWallet, hx, Except.map]

theorem combineShardsBuildWallet_spec_witness :
    shamirCombine [hexToBytes "", hexToBytes ""]
      = .error "each share must be at least 2 bytes"
    ∧ combineShardsBuildWallet 0 "" ""
      = .error "each share must be at least 2 bytes" :=
  ⟨rfl, (combineShardsBuildWallet_spec 0 "" "").2
    "each share must be at least 2 bytes" rfl⟩

/-! ### Hashing (`src/functions/crypto/hash.ts`, `crypto.browser.ts`)

`hashData` UTF-8 encodes data and key (key defaulting to the empty
string), normalises the algorithm name, and always calls the adapter's
`hmacSign` (WebCrypto HMAC); the result is hex encoded.  The model fixes
the algorithm to the default `"sha256"` (normalised `"SHA-256"`); SHA-256
and HMAC follow FIPS 180-4 / RFC 2104, which WebCrypto implements. -/

/-- The SHA-256 round constants. -/
def sha256K : List Nat :=
  [1116352408, 1899447441, 3049323471, 3921009573,
   961987163, 1508970993, 2453635748, 2870763221,
   3624381080, 310598401, 607225278, 1426881987,
   1925078388, 2162078206, 2614888103, 3248222580,
   3835390401, 4022224774, 264347078, 604807628,
   770255983, 1249150122, 1555081692, 1996064986,
   2554220882, 2821834349, 2952996808, 3210313671,
   3336571891, 3584528711, 113926993, 338241895,
   666307205, 773529912, 1294757372, 1396182291,
   1695183700, 1986661051, 2177026350, 2456956037,
   2730485921, 2820302411, 3259730800, 3345764771,
   3516065817, 3600352804, 4094571909, 275423344,
   430227734, 506948616, 659060556, 883997877,
   958139571, 1322822218, 1537002063, 1747873779,
   1955562222, 2024104815, 2227730452, 2361852424,
   2428436474, 2756734187, 3204031479, 3329325298]

/-- The SHA-256 initial hash state. -/
def sha256H0 : List Nat :=
  [1779033703, 3144134277, 1013904242, 2773480762,
   1359893119, 2600822924, 528734635, 1541459225]

/-- 32-bit right rotation. -/
def rotr32 (n x : Nat) : Nat := x / 2 ^ n + x % 2 ^ n * 2 ^ (32 - n)

/-- The SHA-256 logical functions. -/
def shaCh (x y z : Nat) : Nat := (x &&& y) ^^^ ((x ^^^ 0xffffffff) &&& z)

def shaMaj (x y z : Nat) : Nat := (x &&& y) ^^^ (x &&& z) ^^^ (y &&& z)

def bsig0 (x : Nat) : Nat := rotr32 2 x ^^^ rotr32 13 x ^^^ rotr32 22 x

def bsig1 (x : Nat) : Nat := rotr32 6 x ^^^ rotr32 11 x ^^^ rotr32 25 x

def ssig0 (x : Nat) : Nat := rotr32 7 x ^^^ rotr32 18 x ^^^ (x / 8)

def ssig1 (x : Nat) : Nat := rotr32 17 x ^^^ rotr32 19 x ^^^ (x / 1024)

/-- Big-endian 8-byte rendering of the bit length. -/
def beBytes8 (n : Nat) : List Nat :=
  [n / 2 ^ 56 % 256, n / 2 ^ 48 % 256, n / 2 ^ 40 % 256, n / 2 ^ 32 % 256,
   n / 2 ^ 24 % 256, n / 2 ^ 16 % 256, n / 2 ^ 8 % 256, n % 256]

/-- SHA-256 padding: 0x80, zero bytes until the length is 56 mod 64, then
the 8-byte big-endian bit length; `(119 - len % 64) % 64` is the zero count
(no truncated subtraction: `len % 64 <= 63 < 119`). -/
def sha256Pad (msg : List Nat) : List Nat :=
  msg ++ 128 :: List.replicate ((119 - msg.length % 64) % 64) 0
    ++ beBytes8 (8 * msg.length)

/-- Big-endian 4-byte words of a byte list. -/
def toWords : List Nat → List Nat
  | a :: b :: c :: d :: r => (((a * 256 + b) * 256 + c) * 256 + d) :: toWords r
  | _ => []

/-- Extend the 16 message words to 64. -/
def sha256Extend : Nat → List Nat → List Nat
  | 0, w => w
  | k + 1, w =>
      sha256Extend k (w ++ [(ssig1 (w.getD (w.length - 2) 0)
        + w.getD (w.length - 7) 0 + ssig0 (w.getD (w.length - 15) 0)
        + w.getD (w.length - 16) 0) % 4294967296])

/-- One SHA-256 round on the 8-word working state. -/
def sha256Round (st : List Nat) (wi ki : Nat) : List Nat :=
  match st with
  | [a, b, c, d, e, f, g, h] =>
    let t1 := (h + bsig1 e + shaCh e f g + ki + wi) % 4294967296
    let t2 := (bsig0 a + shaMaj a b c) % 4294967296
    [(t1 + t2) % 4294967296, a, b, c, (d + t1) % 4294967296, e, f, g]
  | _ => st

/-- Compress one 64-byte block into the hash state. -/
def sha256Compress (st : List Nat) (block : List Nat) : List Nat :=
  let w := sha256Extend 48 (toWords block)
  let final := (w.zip sha256K).foldl (fun s p => sha256Round s p.1 p.2) st
  (st.zip final).map (fun p => (p.1 + p.2) % 4294967296)

/-- Process the padded message block by block. -/
def sha256Loop : Nat → List Nat → List Nat → List Nat
  | 0, _, st => st
  | k + 1, bytes, st =>
      sha256Loop k (bytes.drop 64) (sha256Compress st (bytes.take 64))

/-- SHA-256 of a byte list (FIPS 180-4). -/
def sha256 (msg : List Nat) : List Nat :=
  let padded := sha256Pad msg
  (sha256Loop (padded.length / 64) padded sha256H0).foldr
    (fun w acc => w / 16777216 % 256 :: w / 65536 % 256
      :: w / 256 % 256 :: w % 256 :: acc) []

/-- HMAC-SHA256 (RFC 2104): pad or hash the key to 64 bytes, inner and
outer hashes with the 0x36/0x5c pads. -/
def hmacSha256 (key msg : List Nat) : List Nat :=
  let k0 := if 64 < key.length then sha256 key ++ List.replicate 32 0
    else key ++ List.replicate (64 - key.length) 0
  sha256 ((k0.map (fun b => b ^^^ 92))
    ++ sha256 ((k0.map (fun b => b ^^^ 54)) ++ msg))

/-- `hashData(data, privateKey = "", algorithm = "sha256")`: UTF-8 encode
data and key, always HMAC-sign — even when no key is given, in which case
the key is the empty byte string — and hex encode the MAC. -/
def hashData (data : String) (privateKey : String := "") : String :=
  bytesToHex (hmacSha256 (stringToBytes privateKey) (stringToBytes data))

theorem sha256Round_length (st : List Nat) (wi ki : Nat) :
    (sha256Round st wi ki).length = st.length := by
  unfold sha256Round
  split
  · simp
  · rfl

theorem foldl_sha256Round_length (l : List (Nat × Nat)) (st : List Nat) :
    (l.foldl (fun s p => sha256Round s p.1 p.2) st).length = st.length := by
  induction l generalizing st with
  | nil => rfl
  | cons p r ih => rw [List.foldl_cons, ih, sha256Round_length]

theorem sha256Compress_length (st block : List Nat) :
    (sha256Compress st block).length = st.length := by
  show ((st.zip _).map _).length = _
  rw [List.length_map, List.length_zip, foldl_sha256Round_length]
  exact min_self _

theorem sha256Loop_length (k : Nat) (bytes st : List Nat) :
    (sha256Loop k bytes st).length = st.length := by
  induction k generalizing bytes st with
  | zero => rfl
  | succ k ih => rw [sha256Loop, ih, sha256Compress_length]

theorem foldr_words_length (st : List Nat) :
    (st.foldr (fun w acc => w / 16777216 % 256 :: w / 65536 % 256
      :: w / 256 % 256 :: w % 256 :: acc) []).length = 4 * st.length := by
  induction st with
  | nil => rfl
  | cons w r ih =>
    simp only [List.foldr_cons, List.length_cons, ih]
    omega

theorem sha256_length (msg : List Nat) : (sha256 msg).length = 32 := by
  show ((sha256Loop ((sha256Pad msg).length / 64) (sha256Pad msg)
    sha256H0).foldr _ []).length = 32
  rw [foldr_words_length, sha256Loop_length]
  rfl

theorem hmacSha256_length (key msg : List Nat) :
    (hmacSha256 key msg).length = 32 :=
  sha256_length _

/-- The padded message is always a whole number of 64-byte blocks. -/
theorem sha256Pad_length (msg : List Nat) :
    (sha256Pad msg).length % 64 = 0 := by
  have h8 : (beBytes8 (8 * msg.length)).length = 8 := by simp [beBytes8]
  show (msg ++ 128 :: List.replicate ((119 - msg.length % 64) % 64) 0
    ++ beBytes8 (8 * msg.length)).length % 64 = 0
  simp only [List.length_append, List.length_cons, List.length_replicate, h8]
  omega

/-- FIPS 180-4 two-block test vector (56-byte message, exercising the
maximal zero-padding case). -/
theorem sha256_two_block_vector :
    bytesToHex (sha256 (stringToBytes
        "abcdbcdecdefdefgefghfghighijhijkijkljklmklmnlmnomnopnopq"))
      = "248d6a61d20638b8e5c026930c3e6039a33ce45964ff2167f6ecedd419db06c1" := by
  decide

/-- HMAC-SHA256 cross-check with a 56-byte message, whose inner hash input
(64-byte padded key plus message) has length 120 = 64 + 56, putting the
inner hash in the same maximal-padding residue class. -/
theorem hmacSha256_long_vector :
    bytesToHex (hmacSha256 (stringToBytes "key") (stringToBytes
        "abcdbcdecdefdefgefghfghighijhijkijkljklmklmnlmnomnopnopq"))
      = "51d94ffed654cf3213880dd9758835893da95e4dbd5c72fed35e2d0e4f0fe98e" := by
  decide

/-- C7 (amended): `hashData` always computes an HMAC of the data — with
the UTF-8 bytes of the key, which defaults to the empty string when no key
is given — never a plain hash; for identical `(data, key)` the result is
the deterministic lowercase-hexadecimal rendering of the 32-byte MAC,
64 characters long. -/
theorem hashData_spec (data privateKey : String) :
    hashData data privateKey
      = bytesToHex (hmacSha256 (stringToBytes privateKey)
        (stringToBytes data))
    ∧ (hashData data privateKey).length = 64
    ∧ ∀ ch ∈ (hashData data privateKey).data, ch ∈ hexDigits := by
  refine ⟨rfl, ?_, bytesToHex_chars _⟩
  show (bytesToHex (hmacSha256 (stringToBytes privateKey)
    (stringToBytes data))).length = 64
  rw [bytesToHex_length, hmacSha256_length]

/-- C7 counterexample: with no key given, `hashData` does not compute the
plain SHA-256 hash of the data (the claim's "plain hash when no key is
given"); it computes the HMAC with the empty key, which differs. -/
theorem hashData_plain_hash_counterexample :
    bytesToHex (sha256 (stringToBytes "abc"))
      = "ba7816bf8f01cfea414140de5dae2223b00361a396177a9cb410ff61f20015ad"
    ∧ hashData "abc" ≠ bytesToHex (sha256 (stringToBytes "abc")) := by
  constructor
  · decide
  · decide

/-! ### Platform adapter singleton (`src/unnamed/part_004`,
`internal/platform-context.ts`)

Module state is the pair `(_adapters, _initialized)`; `setAdapters`
installs a bundle unless already initialised outside development mode;
`getAdapters` throws (modelled `none`) exactly when no bundle is
installed.  `getCrypto`/`getStorage`/`getLinking`/`getEncoding` project
fields of `getAdapters()`. -/

/-- The adapter bundle `PlatformAdapters`. -/
structure PlatformAdapters (C S L E : Type) where
  crypto : C
  storage : S
  linking : L
  encoding : E

/-- The module-level singleton state: `_adapters` and `_initialized`. -/
structure PlatformState (A : Type) where
  adapters : Option A
  initialized : Bool

/-- The state at module load: `null`, `false`. -/
def initialState (A : Type) : PlatformState A := ⟨none, false⟩

/-- `setAdapters(adapters)` with `dev` standing for
`process.env.NODE_ENV === 'development'`: when already initialised it
returns without writing unless in development mode. -/
def setAdapters {A : Type} (dev : Bool) (st : PlatformState A)
    (adapters : A) : PlatformState A :=
  if st.initialized = true ∧ ¬ dev = true then st
  else ⟨some adapters, true⟩

/-- `getAdapters()`: `none` models the "not initialized" throw. -/
def getAdapters {A : Type} (st : PlatformState A) : Option A := st.adapters

/-- `getCrypto()`. -/
def getCrypto {C S L E : Type} (st : PlatformState (PlatformAdapters C S L E)) :
    Option C := (getAdapters st).map PlatformAdapters.crypto

/-- `getEncoding()`. -/
def getEncoding {C S L E : Type} (st : PlatformState (PlatformAdapters C S L E)) :
    Option E := (getAdapters st).map PlatformAdapters.encoding

/-- The state after a sequence of `setAdapters` calls. -/
def runSets {A : Type} (dev : Bool) (calls : List A) : PlatformState A :=
  calls.foldl (setAdapters dev) (initialState A)

theorem foldl_setAdapters_frozen {A : Type} (st : PlatformState A)
    (h : st.initialized = true) (calls : List A) :
    calls.foldl (setAdapters false) st = st := by
  induction calls with
  | nil => rfl
  | cons c cs ih =>
    rw [List.foldl_cons,
      show setAdapters false st c = st from by
        unfold setAdapters
        rw [if_pos ⟨h, by simp⟩],
      ih]

/-- C10: outside development mode the adapter singleton is write-once —
after the first `setAdapters` call every state reached by further calls
equals the state after the first call, so `getAdapters` (and its field
projections `getCrypto`, `getEncoding`, …) keep returning the originally
installed bundle; `getAdapters` throws exactly when no call occurred. -/
theorem setAdapters_write_once {C S L E : Type}
    (calls : List (PlatformAdapters C S L E)) :
    (∀ a rest, calls = a :: rest →
      runSets false calls = runSets false [a]
      ∧ getAdapters (runSets false calls) = some a
      ∧ getCrypto (runSets false calls) = some a.crypto
      ∧ getEncoding (runSets false calls) = some a.encoding)
    ∧ (getAdapters (runSets false calls) = none ↔ calls = []) := by
  have hrun : ∀ (a : PlatformAdapters C S L E) rest,
      runSets false (a :: rest) = ⟨some a, true⟩ := by
    intro a rest
    show (a :: rest).foldl (setAdapters false) (initialState _) = _
    rw [List.foldl_cons,
      show setAdapters false (initialState _) a = ⟨some a, true⟩ from rfl,
      foldl_setAdapters_frozen _ rfl]
  constructor
  · intro a rest hc
    subst hc
    rw [hrun a rest, hrun a []]
    exact ⟨rfl, rfl, rfl, rfl⟩
  · constructor
    · intro hnone
      cases calls with
      | nil => rfl
      | cons a rest =>
        rw [hrun a rest] at hnone
        simp [getAdapters] at hnone
    · intro hc
      subst hc
      rfl

theorem setAdapters_write_once_witness :
    (([⟨1, 2, 3, 4⟩, ⟨5, 6, 7, 8⟩] :
        List (PlatformAdapters Nat Nat Nat Nat))
      = ⟨1, 2, 3, 4⟩ :: [⟨5, 6, 7, 8⟩])
    ∧ (runSets false ([⟨1, 2, 3, 4⟩, ⟨5, 6, 7, 8⟩] :
          List (PlatformAdapters Nat Nat Nat Nat))
        = runSets false [⟨1, 2, 3, 4⟩]
      ∧ getAdapters (runSets false ([⟨1, 2, 3, 4⟩, ⟨5, 6, 7, 8⟩] :
          List (PlatformAdapters Nat Nat Nat Nat))) = some ⟨1, 2, 3, 4⟩
      ∧ getCrypto (runSets false ([⟨1, 2, 3, 4⟩, ⟨5, 6, 7, 8⟩] :
          List (PlatformAdapters Nat Nat Nat Nat))) = some 1
      ∧ getEncoding (runSets false ([⟨1, 2, 3, 4⟩, ⟨5, 6, 7, 8⟩] :
          List (PlatformAdapters Nat Nat Nat Nat))) = some 4) :=
  ⟨rfl, (setAdapters_write_once _).1 ⟨1, 2, 3, 4⟩ [⟨5, 6, 7, 8⟩] rfl⟩

/-! ### Recovery flow (spec §4.3; `client/recovery.ts` is not in the
source tree, so the flow is modelled from the spec) -/

/-- Modelled from the spec: the record returned by `clientRecovery`. -/
structure RecoveryResult where
  deviceShard : String
  authShard : String
  fullKey : String

/-- Modelled from the spec: the recovery pipeline before error collapsing
— decrypt the encrypted recovery shard with the recovery key, combine its
hex-decoding with the auth shard's, UTF-8 decode the mnemonic, re-split it
into three fresh shards, and encrypt the new device shard under the new
device key.  The recovery and device keys appear as the `AeadCipher`s
they induce; internal errors keep their own messages here. -/
def clientRecoveryPipeline (recoveryCipher deviceCipher : AeadCipher)
    (authShard encryptedRecoveryShard : String)
    (rnd : SplitRnd) (iv : List Nat) : Except String RecoveryResult :=
  match decryptWithCipher recoveryCipher encryptedRecoveryShard with
  | none => .error "decryption failed"
  | some recoveryShard =>
    match shamirCombine [hexToBytes authShard, hexToBytes recoveryShard] with
    | .error e => .error e
    | .ok bytes =>
      match spiltKeyIntoShards (bytesToString bytes) rnd with
      | .error e => .error e
      | .ok shards =>
        .ok ⟨encryptWithCipher deviceCipher iv (shards.getD 0 ""),
          shards.getD 1 "", bytesToString bytes⟩

/-- Modelled from the spec: `clientRecovery` runs the pipeline and
collapses every internal failure into the single opaque error. -/
def clientRecovery (recoveryCipher deviceCipher : AeadCipher)
    (authShard encryptedRecoveryShard : String)
    (rnd : SplitRnd) (iv : List Nat) : Except String RecoveryResult :=
  match clientRecoveryPipeline recoveryCipher deviceCipher authShard
      encryptedRecoveryShard rnd iv with
  | .ok r => .ok r
  | .error _ => .error "Invalid recovery answer"

/-- C2: `clientRecovery` either succeeds or fails with exactly the opaque
message "Invalid recovery answer"; every internal failure — a recovery
shard that does not decrypt (wrong key, corrupted ciphertext or malformed
envelope JSON) or a failing combine of the decoded shards — surfaces only
as that message, never with the underlying error. -/
theorem clientRecovery_opaque_error (rc dc : AeadCipher)
    (authShard enc : String) (rnd : SplitRnd) (iv : List Nat) :
    ((∃ r, clientRecovery rc dc authShard enc rnd iv = .ok r)
      ∨ clientRecovery rc dc authShard enc rnd iv
          = .error "Invalid recovery answer")
    ∧ (∀ e, clientRecoveryPipeline rc dc authShard enc rnd iv = .error e →
        clientRecovery rc dc authShard enc rnd iv
          = .error "Invalid recovery answer")
    ∧ (decryptWithCipher rc enc = none →
        clientRecovery rc dc authShard enc rnd iv
          = .error "Invalid recovery answer")
    ∧ (∀ sh e, decryptWithCipher rc enc = some sh →
        shamirCombine [hexToBytes authShard, hexToBytes sh] = .error e →
        clientRecovery rc dc authShard enc rnd iv
          = .error "Invalid recovery answer") := by
  refine ⟨?_, ?_, ?_, ?_⟩
  · cases h : clientRecoveryPipeline rc dc authShard enc rnd iv with
    | ok r =>
      left
      exact ⟨r, by simp [clientRecovery, h]⟩
    | error e =>
      right
      simp [clientRecovery, h]
  · intro e he
    simp [clientRecovery, he]
  · intro hdec
    have hp : clientRecoveryPipeline rc dc authShard enc rnd iv
        = .error "decryption failed" := by
      simp [clientRecoveryPipeline, hdec]
    simp [clientRecovery, hp]
  · intro sh e hdec hcomb
    have hp : clientRecoveryPipeline rc dc authShard enc rnd iv
        = .error e := by
      simp [clientRecoveryPipeline, hdec, hcomb]
    simp [clientRecovery, hp]

theorem clientRecovery_opaque_error_witness :
    decryptWithCipher idCipher "garbage" = none
    ∧ clientRecovery idCipher idCipher "aa" "garbage" testRnd [1]
      = .error "Invalid recovery answer" :=
  ⟨rfl, (clientRecovery_opaque_error idCipher idCipher "aa" "garbage"
    testRnd [1]).2.2.1 rfl⟩

end UtxosSdk
